import Mathlib

/-!
Verification development for the `endless` story-generation service.

The development shallowly embeds the algorithmic core of the repository:
the first-order transition model and its training (`train` package), the
seeded page generator (`train/page.go`), the model cache (`main.go`), the
handler-side seed parsing (`main.go`), and the jittered streaming loop of
`streamPage` (`main.go`).

External dependencies of the repository (the `gomarkov` chain library,
Go's `math/rand`, `encoding/json`) are not part of the source tree; the
definitions standing in for them are explicitly marked as modelled from
the specification's description of their behaviour.  Machine integers are
embedded as `Int`/`Nat` with explicit modular reduction where overflow
could matter; Go loops without a structural termination guarantee take an
explicit fuel argument, and `none` of an `Option`-valued embedding of such
a loop means the loop has not terminated within the given fuel.
-/

set_option autoImplicit false

namespace Endless

/-- Tokens of the transition model: whitespace-delimited words plus the two
sentinel tokens START and END (`gomarkov.StartToken` / `gomarkov.EndToken`). -/
inductive Tok where
  | start : Tok
  | stop : Tok
  | word : String → Tok
  deriving DecidableEq, Repr, Inhabited

/-- Rendering of a token as the string that appears in the generated text.
Modelled from the spec: `gomarkov` represents the sentinels as the strings
`"^"` and `"$"`; a word token is the word itself. -/
def Tok.render : Tok → String
  | .start => "^"
  | .stop => "$"
  | .word s => s

/-- The transition model: a mapping from a context (one token, order 1) to a
mapping from next token to a positive occurrence count, embedded as nested
association lists in insertion order. -/
abbrev Model := List (Tok × List (Tok × Nat))

/-- Occurrence count stored in an inner next-token list (first match). -/
def countIn : List (Tok × Nat) → Tok → Nat
  | [], _ => 0
  | (t, k) :: es, n => if t = n then k else countIn es n

/-- Occurrence count of the transition `c → n` in the model (first match). -/
def count (m : Model) (c n : Tok) : Nat :=
  match m with
  | [] => 0
  | (t, es) :: r => if t = c then countIn es n else count r c n

/-- Increment the count of next-token `n` in an inner list, appending a fresh
entry with count 1 when `n` is absent. -/
def bump : List (Tok × Nat) → Tok → List (Tok × Nat)
  | [], n => [(n, 1)]
  | (t, k) :: es, n => if t = n then (t, k + 1) :: es else (t, k) :: bump es n

/-- Increment the count of the transition `c → n` by one, appending fresh
buckets/entries when absent. -/
def addPair (m : Model) (c n : Tok) : Model :=
  match m with
  | [] => [(c, [(n, 1)])]
  | (t, es) :: r => if t = c then (t, bump es n) :: r else (t, es) :: addPair r c n

/-- Consecutive pairs of a list: `zipConsec [a,b,c] = [(a,b),(b,c)]`. -/
def zipConsec : List Tok → List (Tok × Tok)
  | [] => []
  | [_] => []
  | a :: b :: r => (a, b) :: zipConsec (b :: r)

/-- Token sequence of one training sentence: START, the sentence's words,
END. -/
def tokensOfSentence (ws : List String) : List Tok :=
  Tok.start :: ws.map Tok.word ++ [Tok.stop]

/-- Modelled from the spec: `gomarkov.Chain.Add` (the chain library is not in
the source tree).  For an order-1 chain it prepends START, appends END, and
increments the count of every consecutive (previous token, current token)
pair by one. -/
def chainAdd (m : Model) (ws : List String) : Model :=
  (zipConsec (tokensOfSentence ws)).foldl (fun acc pr => addPair acc pr.1 pr.2) m

/-- ASCII model of the whitespace test used by `strings.Fields`
(`unicode.IsSpace`); all inputs considered in the theorems are ASCII. -/
def isGoSpace (c : Char) : Bool :=
  c = ' ' || c = '\t' || c = '\n' || c = '\r' || c = '\x0b' || c = '\x0c'

/-- Accumulator loop for `goFields`. -/
def fieldsAux : List Char → List Char → List String
  | [], cur => if cur.isEmpty then [] else [String.mk cur.reverse]
  | c :: cs, cur =>
    if isGoSpace c then
      if cur.isEmpty then fieldsAux cs [] else String.mk cur.reverse :: fieldsAux cs []
    else fieldsAux cs (c :: cur)

/-- Embedding of `strings.Fields`: split around runs of whitespace, producing
no empty words. -/
def goFields (s : String) : List String :=
  fieldsAux s.data []

/-- Terminator test of `AddTextToModel` (part_000:34-35): the word's last
character is `.`, `!` or `?`. -/
def isTerm (w : String) : Bool :=
  match w.data.getLast? with
  | some c => c = '.' || c = '!' || c = '?'
  | none => false

/-- Sentence-grouping loop of `AddTextToModel` (part_000:31-43): emit a
sentence whenever a terminator word is seen, and the trailing unterminated
remainder, when non-empty, as one final sentence. -/
def ssAux (cur : List String) : List String → List (List String)
  | [] => if cur.isEmpty then [] else [cur]
  | w :: rest => if isTerm w then (cur ++ [w]) :: ssAux [] rest else ssAux (cur ++ [w]) rest

/-- Sentence decomposition used by `AddTextToModel`. -/
def splitSentences (ws : List String) : List (List String) :=
  ssAux [] ws

/-- Embedding of `AddTextToModel` (part_000:25-62): split the input into
whitespace-delimited words, group them into sentences at terminator words,
and add each sentence to the chain.  The Go function's error result is the
constant `nil`, so the embedding returns the model directly. -/
def AddTextToModel (m : Model) (input : String) : Model :=
  (splitSentences (goFields input)).foldl chainAdd m

/-- Embedding of `BuildModel` (part_000:13-22): train on an empty order-1
chain. -/
def BuildModel (input : String) : Model :=
  AddTextToModel [] input

/-! ### Seeded pseudo-random generator

Modelled from the spec: page generation uses Go's `math/rand.Rand`
(external, not in the source tree), which the spec requires only to be "a
specific seeded, stateful generator instance" reproducing the same output
sequence from the same state.  The stand-in is a linear congruential
generator in the style of the repository's own `SeedablePRNG`
(part_000:107-138), with explicit modular reduction. -/

/-- State of the modelled seeded generator; the operations keep the state
below `2^31`. -/
structure Prng where
  state : Int
  deriving DecidableEq, Repr

/-- Modulus of the modelled generator (the `& 0x7fffffff` mask of
`SeedablePRNG.Intn`). -/
def prngMod : Int := 2147483648

/-- One step of the linear congruential generator, returning the drawn value
(equal to the new state, in `[0, 2^31)`). -/
def Prng.next (p : Prng) : Int × Prng :=
  let s := (p.state * 1103515245 + 12345) % prngMod
  (s, ⟨s⟩)

/-- Modelled `rand.New(rand.NewSource(seed))`. -/
def mkPrng (seed : Int) : Prng :=
  ⟨seed % prngMod⟩

/-- Modelled `Rand.Int63`: a non-negative pseudo-random 63-bit integer. -/
def Prng.int63 (p : Prng) : Int × Prng :=
  p.next

/-- Modelled `Rand.Int63n`: a pseudo-random integer in `[0, n)`; Go panics
for `n ≤ 0`, which never occurs at the call sites embedded here. -/
def Prng.int63n (p : Prng) (n : Int) : Int × Prng :=
  if n ≤ 0 then (0, p)
  else
    let (v, p') := p.next
    (v % n, p')

/-- Modelled `Rand.Intn`. -/
def Prng.intn (p : Prng) (n : Nat) : Nat × Prng :=
  if n = 0 then (0, p)
  else
    let (v, p') := p.next
    (v.toNat % n, p')

/-- Modelled `Rand.Float64`: a rational in `[0, 1)`. -/
def Prng.float64 (p : Prng) : ℚ × Prng :=
  let (v, p') := p.next
  ((v : ℚ) / (prngMod : ℚ), p')

/-! ### Deterministic sampling and sequence generation -/

/-- First bucket of the model whose context equals `c`. -/
def lookupCtx (m : Model) (c : Tok) : Option (List (Tok × Nat)) :=
  match m with
  | [] => none
  | (t, es) :: r => if t = c then some es else lookupCtx r c

/-- Total weight of an inner next-token list. -/
def totalWeight (es : List (Tok × Nat)) : Nat :=
  (es.map Prod.snd).sum

/-- Cumulative weighted selection: walk the entries subtracting counts. -/
def pickWeighted : List (Tok × Nat) → Nat → Tok
  | [], _ => Tok.word ""
  | [(t, _)], _ => t
  | (t, k) :: es, r => if r < k then t else pickWeighted es (r - k)

/-- All tokens the model has observed, contexts and next tokens alike. -/
def alphabet (m : Model) : List Tok :=
  (m.map Prod.fst ++ m.flatMap (fun ce => ce.2.map Prod.fst)).dedup

/-- Modelled from the spec: `gomarkov` `GenerateDeterministic` (the chain
library is not in the source tree).  Selects the next token from the
context's next-token distribution proportionally to occurrence count using
one entropy draw per call; for a context never observed it falls back to an
unweighted alphabet-wide choice; it fails (with an error in Go) when there
is nothing to choose from, e.g. on an empty model. -/
def sampleDeterministic (m : Model) (c : Tok) (p : Prng) : Option (Tok × Prng) :=
  match lookupCtx m c with
  | some es =>
    let t := totalWeight es
    if t = 0 then none
    else
      let (v, p') := p.next
      some (pickWeighted es (v.toNat % t), p')
  | none =>
    let ab := alphabet m
    if ab.isEmpty then none
    else
      let (v, p') := p.next
      some (ab.getD (v.toNat % ab.length) (Tok.word ""), p')

/-- The `next, _ := chain.GenerateDeterministic(...)` step of
`GenerateStoryFromPrng` (part_000:90): the error result is discarded, so a
failed draw leaves the Go zero value `""` as the next token and the
generator untouched. -/
def sampleDiscard (m : Model) (c : Tok) (p : Prng) : Tok × Prng :=
  (sampleDeterministic m c p).getD (Tok.word "", p)

/-- The sampling loop of `GenerateStoryFromPrng` (part_000:89-92), with
fuel: from the current token, while it is not END, draw the next token with
the context advanced to the most recent token.  Returns the tokens sampled
after `cur` (up to and including END); `none` means the loop did not
terminate within `fuel` iterations. -/
def genLoop (m : Model) : Nat → Tok → Prng → Option (List Tok × Prng)
  | 0, _, _ => none
  | fuel + 1, cur, p =>
    if cur = Tok.stop then some ([], p)
    else
      let (nxt, p') := sampleDiscard m cur p
      (genLoop m fuel nxt p').map (fun r => (nxt :: r.1, r.2))

/-- Full token trace of one generated sequence, starting from START. -/
def genTokens (m : Model) (fuel : Nat) (p : Prng) : Option (List Tok × Prng) :=
  (genLoop m fuel Tok.start p).map (fun r => (Tok.start :: r.1, r.2))

/-- Embedding of `GenerateStoryFromPrng` (part_000:87-94): run the sampling
loop from START and join `tokens[1:len(tokens)-1]` (all tokens with the
leading START and the trailing END stripped) with single spaces.  The Go
function's error result is the constant `nil`; `none` here means the loop
ran out of fuel (the Go code would still be looping). -/
def GenerateStoryFromPrng (m : Model) (p : Prng) (fuel : Nat) : Option (String × Prng) :=
  (genTokens m fuel p).map
    (fun r => (String.intercalate " " (((r.1.drop 1).dropLast).map Tok.render), r.2))

/-! ### Serialization -/

/-- Modelled from the spec: `SerializeModel` (part_000:73-75) marshals the
chain with `encoding/json` (external); the spec requires only a
self-describing encoding supporting a lossless round-trip of the full
context→next-token→count structure.  The stand-in encoding is the list of
(context, next token, count) triples in model order. -/
def SerializeModel (m : Model) : List (Tok × Tok × Nat) :=
  m.flatMap (fun ce => ce.2.map (fun nk => (ce.1, nk.1, nk.2)))

/-- Add `k` occurrences of the transition `c → n` (the weighted analogue of
`addPair`, used to rebuild a model from its serialized triples). -/
def addWeighted (m : Model) (c n : Tok) (k : Nat) : Model :=
  match m with
  | [] => [(c, [(n, k)])]
  | (t, es) :: r => if t = c then (t, bumpWeighted es n k) :: r else (t, es) :: addWeighted r c n k
where
  /-- Inner-list analogue of `bump` adding `k` occurrences. -/
  bumpWeighted : List (Tok × Nat) → Tok → Nat → List (Tok × Nat)
  | [], n, k => [(n, k)]
  | (t, j) :: es, n, k => if t = n then (t, j + k) :: es else (t, j) :: bumpWeighted es n k

/-- Modelled from the spec: `LoadModel` (part_000:64-71) unmarshals the
serialized chain; the stand-in rebuilds the model by inserting every
serialized (context, next token, count) triple in order. -/
def LoadModel (ts : List (Tok × Tok × Nat)) : Model :=
  ts.foldl (fun m t => addWeighted m t.1 t.2.1 t.2.2) []

/-! ### Slug derivation and links (`train/page.go`, second revision) -/

/-- ASCII model of the `unicode.IsLetter || unicode.IsNumber` test of
`createLinkFromSeed` (page.go:225-230); all titles considered in the
theorems are ASCII. -/
def isAlnumAscii (c : Char) : Bool :=
  ('a' ≤ c && c ≤ 'z') || ('A' ≤ c && c ≤ 'Z') || ('0' ≤ c && c ≤ '9')

/-- ASCII model of `strings.ToLower`. -/
def goToLower (c : Char) : Char :=
  if 'A' ≤ c && c ≤ 'Z' then Char.ofNat (c.toNat + 32) else c

/-- Drop matching characters from both ends of a list (`strings.Trim` /
`strings.TrimSpace`). -/
def trimBy (pred : Char → Bool) (l : List Char) : List Char :=
  ((l.dropWhile pred).reverse.dropWhile pred).reverse

/-- Embedding of Go's `strings.ReplaceAll(s, "--", "-")` (page.go:232):
replace non-overlapping leftmost occurrences of a double hyphen by a single
one, in one pass; `"---"` therefore becomes `"--"`. -/
def collapseDoubleHyphen : List Char → List Char
  | [] => []
  | [c] => [c]
  | '-' :: '-' :: rest => '-' :: collapseDoubleHyphen rest
  | c :: rest => c :: collapseDoubleHyphen rest

/-- Slug pipeline of `createLinkFromSeed` (page.go:219-234): cap the slug
source to the first 64 characters of the raw title, trim whitespace,
lowercase, replace spaces and newlines with hyphens, strip characters that
are neither alphanumeric nor hyphens, replace `--` with `-` in one pass,
and trim leading/trailing hyphens. -/
def slugify (title : String) : String :=
  let numChars := min 64 title.length
  let l := trimBy isGoSpace (title.data.take numChars)
  let l := l.map goToLower
  let l := l.map (fun c => if c = ' ' then '-' else c)
  let l := l.map (fun c => if c = '\n' then '-' else c)
  let l := l.filter (fun c => isAlnumAscii c || c = '-')
  let l := collapseDoubleHyphen l
  String.mk (trimBy (fun c => c = '-') l)

/-- Decimal digit characters. -/
def digitChar : Nat → Char
  | 0 => '0' | 1 => '1' | 2 => '2' | 3 => '3' | 4 => '4'
  | 5 => '5' | 6 => '6' | 7 => '7' | 8 => '8' | _ => '9'

/-- Fueled accumulator loop printing a natural number in decimal. -/
def printDecAux : Nat → Nat → List Char → List Char
  | 0, _, acc => acc
  | fuel + 1, n, acc =>
    if n < 10 then digitChar n :: acc
    else printDecAux fuel (n / 10) (digitChar (n % 10) :: acc)

/-- Decimal digits of a natural number. -/
def decDigits (n : Nat) : List Char :=
  printDecAux (n + 1) n []

/-- Embedding of `fmt.Sprintf("%d", seed)` for an `int64` seed. -/
def printInt (i : Int) : String :=
  if i < 0 then String.mk ('-' :: decDigits (-i).toNat) else String.mk (decDigits i.toNat)

/-- The page link record (page.go:243-247). -/
structure PageLink where
  Url : String
  Title : String
  Seed : Int
  deriving DecidableEq, Repr, Inhabited

/-- Embedding of `createLinkFromSeed` (page.go:210-241): generate the title
with the given generator, slugify it, and build the `/post/{seed}-{slug}`
URL. -/
def createLinkFromSeed (seed : Int) (p : Prng) (m : Model) (fuel : Nat) :
    Option (PageLink × Prng) :=
  (GenerateStoryFromPrng m p fuel).map (fun r =>
    ({ Url := "/post/" ++ printInt seed ++ "-" ++ slugify r.1
       Title := r.1
       Seed := seed }, r.2))

/-- Embedding of `createNewLink` (page.go:204-208): draw a fresh `Int63`
seed from the current generator, build an independent generator from it,
and perform the title/slug/URL construction with that sub-seed; the parent
generator continues past the single seed draw. -/
def createNewLink (pOld : Prng) (m : Model) (fuel : Nat) : Option (PageLink × Prng) :=
  let (seed, pAfter) := pOld.int63
  (createLinkFromSeed seed (mkPrng seed) m fuel).map (fun r => (r.1, pAfter))

/-- Sentence-accumulation loop of `createParagraph` (page.go:191-200). -/
def paragraphLoop (m : Model) (fuel : Nat) : Nat → Prng → Option (List String × Prng)
  | 0, p => some ([], p)
  | k + 1, p =>
    match GenerateStoryFromPrng m p fuel with
    | none => none
    | some (s, p') => (paragraphLoop m fuel k p').map (fun r => (s :: r.1, r.2))

/-- Embedding of `createParagraph` (page.go:188-202): draw a sentence count
in `[1, 10]` and join that many generated sentences with single spaces. -/
def createParagraph (p : Prng) (m : Model) (fuel : Nat) : Option (String × Prng) :=
  let (k, p') := p.intn 10
  (paragraphLoop m fuel (k + 1) p').map (fun r => (String.intercalate " " r.1, r.2))

/-- Link-accumulation loop of `createLinks` (page.go:252-258). -/
def linksLoop (m : Model) (fuel : Nat) : Nat → Prng → Option (List PageLink × Prng)
  | 0, p => some ([], p)
  | k + 1, p =>
    match createNewLink p m fuel with
    | none => none
    | some (l, p') => (linksLoop m fuel k p').map (fun r => (l :: r.1, r.2))

/-- Embedding of `createLinks` (page.go:249-260): draw a link count in
`[1, 3]` and build that many related links. -/
def createLinks (p : Prng) (m : Model) (fuel : Nat) : Option (List PageLink × Prng) :=
  let (k, p') := p.intn 3
  linksLoop m fuel (k + 1) p'

/-- Seconds in the two-year window of `generateRandomDate`.  Modelled from
the spec: Go's `AddDate(-2, 0, 0)` is calendar-aware (730 or 731 days); the
embedding uses a fixed 730-day span, which preserves the property the
claims are about, namely that the result depends on the clock. -/
def twoYearsSeconds : Int := 63072000

/-- Embedding of `generateRandomDate` (page.go:263-276): times are Unix
seconds; the function reads the current clock `now`, takes `twoYearsAgo`,
draws a uniform offset in the window, and adds it to `twoYearsAgo`. -/
def generateRandomDate (now : Int) (p : Prng) : Int × Prng :=
  let twoYearsAgo := now - twoYearsSeconds
  let (r, p') := p.int63n twoYearsSeconds
  (twoYearsAgo + r, p')

/-- The fixed author list (page.go:278-286). -/
def authors : List String :=
  ["Arlo Mills", "Joe Goetz", "Billy Goetz", "Marybeth Trott",
   "Charlie Davis", "Diana White", "Ethan Young"]

/-- The generated page record (page.go:153-159); `LastUpdated` is Unix
seconds. -/
structure GeneratedPage where
  Link : PageLink
  Content : String
  Links : List PageLink
  LastUpdated : Int
  Author : String
  deriving DecidableEq, Repr, Inhabited

/-- Embedding of `GeneratePage` (page.go:161-186): build the page's own
link, the body paragraph, the related links, the random date and the author
from one generator seeded with `seed`, in that order; `now` is the wall
clock (Unix seconds) that `generateRandomDate` reads. -/
def GeneratePage (m : Model) (seed : Int) (now : Int) (fuel : Nat) : Option GeneratedPage :=
  let p := mkPrng seed
  match createLinkFromSeed seed p m fuel with
  | none => none
  | some (thisLink, p) =>
    match createParagraph p m fuel with
    | none => none
    | some (content, p) =>
      match createLinks p m fuel with
      | none => none
      | some (links, p) =>
        let (lastUpdated, p2) := generateRandomDate now p
        let (k, _) := p2.intn authors.length
        some { Link := thisLink, Content := content, Links := links,
               LastUpdated := lastUpdated, Author := authors.getD k "" }

/-- The seed sequence of `GenerateHomePagePosts` (page.go:291-296): base
seed `now / 86400` (Go `int64` division) and page seeds `base + i*1000`. -/
def homePageSeeds (now : Int) (cnt : Nat) : List Int :=
  (List.range cnt).map (fun (i : Nat) => now / 86400 + (i : Int) * 1000)

/-- Post-accumulation loop of `GenerateHomePagePosts` (page.go:294-303). -/
def genPostsLoop (m : Model) (now : Int) (fuel : Nat) : List Int → Option (List GeneratedPage)
  | [] => some []
  | s :: rest =>
    match GeneratePage m s now fuel with
    | none => none
    | some pg => (genPostsLoop m now fuel rest).map (fun l => pg :: l)

/-- Embedding of `GenerateHomePagePosts` (page.go:289-306): generate one
page per derived seed, in order. -/
def GenerateHomePagePosts (m : Model) (cnt : Nat) (now : Int) (fuel : Nat) :
    Option (List GeneratedPage) :=
  genPostsLoop m now fuel (homePageSeeds now cnt)

/-! ### Model cache (`main.go`) -/

/-- A stored model row (`store.MarkovChainModel`); `createdAt` abstracts the
`created_at` timestamp. -/
structure MarkovChainModel where
  id : Nat
  modelData : String
  createdAt : Nat
  deriving DecidableEq, Repr, Inhabited

/-- Insertion step of the `ORDER BY created_at DESC` sort. -/
def insertDesc (x : MarkovChainModel) : List MarkovChainModel → List MarkovChainModel
  | [] => [x]
  | y :: r => if y.createdAt ≤ x.createdAt then x :: y :: r else y :: insertDesc x r

/-- Newest-first ordering of the store. -/
def sortDesc (l : List MarkovChainModel) : List MarkovChainModel :=
  l.foldr insertDesc []

/-- Embedding of `store.GetAllMarkovChainModels(limit)` (train.go:517-535):
`SELECT ... ORDER BY created_at DESC LIMIT ?`. -/
def GetAllMarkovChainModels (store : List MarkovChainModel) (limit : Nat) :
    List MarkovChainModel :=
  (sortDesc store).take limit

/-- Embedding of `getLatestModel` (main.go:355-377): return the cached model
when present, otherwise fetch the single most-recently-created model from
the store, cache it and return it; fail, leaving the cache empty, when the
store has no models.  Returns (result, new cache state). -/
def getLatestModel (cache : Option MarkovChainModel) (store : List MarkovChainModel) :
    Except String MarkovChainModel × Option MarkovChainModel :=
  match cache with
  | some m => (Except.ok m, some m)
  | none =>
    match GetAllMarkovChainModels store 1 with
    | [] => (Except.error "no models found in database", none)
    | m :: _ => (Except.ok m, some m)

/-- Embedding of `clearModelCache` (main.go:380-382). -/
def clearModelCache (_cache : Option MarkovChainModel) : Option MarkovChainModel :=
  none

/-! ### Handler-side seed parsing (`main.go:590-604`) -/

/-- Digit test of `strconv.ParseInt` with base 10. -/
def isDigitCh (c : Char) : Bool :=
  '0' ≤ c && c ≤ '9'

/-- Accumulator loop of the base-10 parse. -/
def parseUintAux : List Char → Nat → Option Nat
  | [], acc => some acc
  | c :: r, acc => if isDigitCh c then parseUintAux r (acc * 10 + (c.toNat - 48)) else none

/-- Embedding of `strconv.ParseInt(s, 10, 64)` for the handler's id segment:
an optional minus sign followed by at least one decimal digit, rejecting
values outside the signed 64-bit range. -/
def goParseInt (s : String) : Option Int :=
  match s.data with
  | [] => none
  | c :: r =>
    if c = '-' then
      if r.isEmpty then none
      else (parseUintAux r 0).bind
        (fun n => if n ≤ 9223372036854775808 then some (-(n : Int)) else none)
    else
      (parseUintAux (c :: r) 0).bind
        (fun n => if n ≤ 9223372036854775807 then some (n : Int) else none)

/-- Test for a non-hyphen character, the unit of
`strings.SplitN(id, "-", 2)[0]`. -/
def notHyphen (c : Char) : Bool :=
  c != '-'

/-- Embedding of the id extraction of `generatePageStreamHandler`
(main.go:594-596): `strings.SplitN(id, "-", 2)[0]` is the prefix of the id
segment before its first hyphen, then parsed with `strconv.ParseInt`. -/
def handlerParseId (idSegment : String) : Option Int :=
  goParseInt (String.mk (idSegment.data.takeWhile notHyphen))

/-- The id segment of a `/post/{id}` URL: everything after the `"/post/"`
prefix. -/
def stripPostPrefix (url : String) : String :=
  String.mk (url.data.drop 6)

/-! ### Streaming (`main.go:635-939`) -/

/-- Embedding of Go's `html.EscapeString` on a single character, as used by
the title-streaming loop. -/
def escapeHtmlChar (c : Char) : String :=
  if c = '&' then "&amp;"
  else if c = '\'' then "&#39;"
  else if c = '<' then "&lt;"
  else if c = '>' then "&gt;"
  else if c = '"' then "&#34;"
  else String.mk [c]

/-- The word delay constant of `streamPage` (main.go:666): 50ms in
nanoseconds. -/
def wordDelay : Int := 50000000

/-- Go float-to-integer conversion: truncation toward zero. -/
def goTrunc (q : ℚ) : Int :=
  if 0 ≤ q then ⌊q⌋ else ⌈q⌉

/-- Embedding of the `addJitter` closure (main.go:671-676): add a uniform
jitter of up to ±30% of the base delay, drawn from the request's jitter
generator.  The float arithmetic of the Go code is modelled over the
rationals (the literal `0.3` taken exactly) with Go's float-to-`Duration`
truncation. -/
def addJitter (p : Prng) (baseDelay : Int) : Int × Prng :=
  let (f, p') := p.float64
  let jitterRange : ℚ := (baseDelay : ℚ) * (3 / 10)
  let jitter : ℚ := (f * 2 - 1) * jitterRange
  (baseDelay + goTrunc jitter, p')

/-- Embedding of the title-streaming loop of `streamPage` (main.go:872-877):
one write+flush of the HTML-escaped character followed by a jittered sleep
of base `wordDelay / 3`, for every character of the title in order.  Each
emitted event is (written chunk, delay slept after it, in nanoseconds). -/
def streamTitleLoop : List Char → Prng → List (String × Int) × Prng
  | [], p => ([], p)
  | c :: cs, p =>
    let (d, p') := addJitter p (wordDelay / 3)
    let (evs, p'') := streamTitleLoop cs p'
    ((escapeHtmlChar c, d) :: evs, p'')

/-! ## Counting lemmas for training -/

theorem countIn_bump (es : List (Tok × Nat)) (b n : Tok) :
    countIn (bump es b) n = countIn es n + (if b = n then 1 else 0) := by
  induction es with
  | nil => by_cases h : b = n <;> simp [bump, countIn, h]
  | cons e es ih =>
    obtain ⟨t, k⟩ := e
    by_cases htb : t = b
    · subst htb
      rw [show bump ((t, k) :: es) t = (t, k + 1) :: es from by simp [bump]]
      simp only [countIn]
      by_cases htn : t = n
      · rw [if_pos htn, if_pos htn, if_pos htn]
      · rw [if_neg htn, if_neg htn, if_neg htn]
        omega
    · rw [show bump ((t, k) :: es) b = (t, k) :: bump es b from by simp [bump, htb]]
      simp only [countIn]
      by_cases htn : t = n
      · rw [if_pos htn, if_pos htn]
        have hbn : ¬b = n := fun h => htb (htn.trans h.symm)
        rw [if_neg hbn]
        omega
      · rw [if_neg htn, if_neg htn]
        exact ih

theorem count_addPair (m : Model) (a b c n : Tok) :
    count (addPair m a b) c n = count m c n + (if a = c ∧ b = n then 1 else 0) := by
  induction m with
  | nil =>
    by_cases hac : a = c
    · subst hac
      by_cases hbn : b = n <;> simp [addPair, count, countIn, hbn]
    · simp [addPair, count, countIn, hac]
  | cons e r ih =>
    obtain ⟨t, es⟩ := e
    by_cases hta : t = a
    · subst hta
      by_cases htc : t = c
      · subst htc
        rw [show addPair ((t, es) :: r) t b = (t, bump es b) :: r from by simp [addPair]]
        simp only [count, if_true, countIn_bump]
        by_cases hbn : b = n <;> simp [hbn]
      · simp [addPair, count, htc]
    · by_cases htc : t = c
      · subst htc
        simp only [addPair, if_neg hta, count, if_true]
        have : ¬(a = t ∧ b = n) := fun h => hta (Eq.symm h.1)
        simp [this]
      · simp [addPair, count, hta, htc, ih]

theorem count_foldl_addPair (ps : List (Tok × Tok)) (m : Model) (c n : Tok) :
    count (ps.foldl (fun acc pr => addPair acc pr.1 pr.2) m) c n =
      count m c n + ps.countP (fun pr => decide (pr = (c, n))) := by
  induction ps generalizing m with
  | nil => simp
  | cons pr ps ih =>
    obtain ⟨a, b⟩ := pr
    rw [List.foldl_cons, ih, count_addPair, List.countP_cons]
    by_cases hac : a = c
    · by_cases hbn : b = n
      · simp [hac, hbn, Prod.ext_iff]
        omega
      · simp [hac, hbn, Prod.ext_iff]
    · by_cases hbn : b = n
      · simp [hac, hbn, Prod.ext_iff]
      · simp [hac, hbn, Prod.ext_iff]

theorem count_chainAdd (m : Model) (ws : List String) (c n : Tok) :
    count (chainAdd m ws) c n =
      count m c n +
        (zipConsec (tokensOfSentence ws)).countP (fun pr => decide (pr = (c, n))) :=
  count_foldl_addPair _ m c n

theorem count_foldl_chainAdd (ss : List (List String)) (m : Model) (c n : Tok) :
    count (ss.foldl chainAdd m) c n =
      count m c n +
        (ss.map (fun s =>
          (zipConsec (tokensOfSentence s)).countP (fun pr => decide (pr = (c, n))))).sum := by
  induction ss generalizing m with
  | nil => simp
  | cons s ss ih => rw [List.foldl_cons, ih, count_chainAdd]; simp; omega

/-! ## Sentence-splitting characterization -/

theorem ssAux_join (ws : List String) : ∀ cur, (ssAux cur ws).flatten = cur ++ ws := by
  induction ws with
  | nil =>
    intro cur
    by_cases h : cur.isEmpty
    · simp [ssAux, h, List.isEmpty_iff.mp h]
    · simp [ssAux, h]
  | cons w rest ih =>
    intro cur
    by_cases h : isTerm w <;> simp [ssAux, h, ih]

theorem ssAux_ne_nil (ws : List String) :
    ∀ cur s, s ∈ ssAux cur ws → s ≠ [] := by
  induction ws with
  | nil =>
    intro cur s hs
    by_cases h : cur.isEmpty
    · simp [ssAux, h] at hs
    · simp [ssAux, h] at hs
      subst hs
      exact fun hc => h (by simp [hc])
  | cons w rest ih =>
    intro cur s hs
    by_cases h : isTerm w <;> simp only [ssAux, h, if_true, if_false, Bool.false_eq_true] at hs
    · rcases List.mem_cons.mp hs with h1 | h1
      · subst h1; simp
      · exact ih [] s h1
    · exact ih (cur ++ [w]) s hs

theorem ssAux_dropLast_not_term (ws : List String) :
    ∀ cur, (∀ w ∈ cur, isTerm w = false) →
      ∀ s ∈ ssAux cur ws, ∀ w ∈ s.dropLast, isTerm w = false := by
  induction ws with
  | nil =>
    intro cur hcur s hs w hw
    by_cases h : cur.isEmpty
    · simp [ssAux, h] at hs
    · simp [ssAux, h] at hs
      subst hs
      exact hcur w ((List.dropLast_sublist s).subset hw)
  | cons w0 rest ih =>
    intro cur hcur s hs w hw
    by_cases h : isTerm w0 <;>
      simp only [ssAux, h, if_true, if_false, Bool.false_eq_true] at hs
    · rcases List.mem_cons.mp hs with h1 | h1
      · subst h1
        rw [List.dropLast_concat] at hw
        exact hcur w hw
      · exact ih [] (by simp) s h1 w hw
    · refine ih (cur ++ [w0]) ?_ s hs w hw
      intro x hx
      rcases List.mem_append.mp hx with hx | hx
      · exact hcur x hx
      · rw [List.mem_singleton.mp hx]
        exact Bool.not_eq_true _ ▸ h

theorem ssAux_dropLast_ends_term (ws : List String) :
    ∀ cur, ∀ s ∈ (ssAux cur ws).dropLast, ∃ w, s.getLast? = some w ∧ isTerm w = true := by
  induction ws with
  | nil =>
    intro cur s hs
    by_cases h : cur.isEmpty <;> simp [ssAux, h] at hs
  | cons w0 rest ih =>
    intro cur s hs
    by_cases h : isTerm w0 <;>
      simp only [ssAux, h, if_true, if_false, Bool.false_eq_true] at hs
    · rcases hrest : ssAux [] rest with l | ls
      · rw [hrest] at hs
        simp at hs
      · rw [hrest, List.dropLast_cons₂] at hs
        rcases List.mem_cons.mp hs with h1 | h1
        · subst h1
          exact ⟨w0, by simp, h⟩
        · exact ih [] s (hrest ▸ h1)
    · exact ih (cur ++ [w0]) s hs

/-- Claim C4: for every existing model and input text, training splits the
text into whitespace-delimited words grouped into sentences at words ending
in `.`, `!` or `?` (a trailing unterminated remainder being one final
sentence, every sentence non-empty with terminators only at its end), and,
for each sentence with START prepended and END appended, increments the
count of every consecutive (previous token, current token) pair by exactly
one (the per-sentence pair multiplicity); empty input leaves the model
unchanged, and no existing count is ever decreased or removed. -/
theorem AddTextToModel_spec :
    (∀ (m : Model) (input : String) (c n : Tok),
        count (AddTextToModel m input) c n =
          count m c n +
            ((splitSentences (goFields input)).map
              (fun s => (zipConsec (tokensOfSentence s)).countP
                (fun pr => decide (pr = (c, n))))).sum)
    ∧ (∀ m : Model, AddTextToModel m "" = m)
    ∧ (∀ (m : Model) (input : String) (c n : Tok),
        count m c n ≤ count (AddTextToModel m input) c n)
    ∧ (∀ input : String,
        (splitSentences (goFields input)).flatten = goFields input
        ∧ (∀ s ∈ splitSentences (goFields input), s ≠ [] ∧ ∀ w ∈ s.dropLast, isTerm w = false)
        ∧ (∀ s ∈ (splitSentences (goFields input)).dropLast,
            ∃ w, s.getLast? = some w ∧ isTerm w = true)) := by
  refine ⟨fun m input c n => count_foldl_chainAdd _ m c n, fun m => rfl,
    fun m input c n => ?_, fun input => ⟨ssAux_join _ [], fun s hs => ?_, fun s hs => ?_⟩⟩
  · rw [AddTextToModel, count_foldl_chainAdd]
    exact Nat.le_add_right _ _
  · exact ⟨ssAux_ne_nil _ [] s hs, ssAux_dropLast_not_term _ [] (by simp) s hs⟩
  · exact ssAux_dropLast_ends_term _ [] s hs

/-- Witness for `AddTextToModel_spec` at concrete inputs. -/
theorem AddTextToModel_spec_witness :
    count ([] : Model) Tok.start (Tok.word "a.") ≤
        count (AddTextToModel [] "a. b") Tok.start (Tok.word "a.")
    ∧ (["b"] : List String) ≠ []
    ∧ ∃ w, (["a."] : List String).getLast? = some w ∧ isTerm w = true :=
  ⟨AddTextToModel_spec.2.2.1 [] "a. b" Tok.start (Tok.word "a."),
   ((AddTextToModel_spec.2.2.2 "a. b").2.1 ["b"] (by decide)).1,
   (AddTextToModel_spec.2.2.2 "a. b").2.2 ["a."] (by decide)⟩

/-! ## Serialization round trip -/

/-- Well-formedness of a model as maintained by training: outer contexts are
distinct, inner next-token lists have distinct keys and are non-empty. -/
def WFModel (m : Model) : Prop :=
  (m.map Prod.fst).Nodup ∧ ∀ ce ∈ m, (ce.2.map Prod.fst).Nodup ∧ ce.2 ≠ []

theorem keys_bump (es : List (Tok × Nat)) (n : Tok) :
    (bump es n).map Prod.fst =
      if n ∈ es.map Prod.fst then es.map Prod.fst else es.map Prod.fst ++ [n] := by
  induction es with
  | nil => simp [bump]
  | cons e es ih =>
    obtain ⟨t, k⟩ := e
    by_cases htn : t = n
    · simp [bump, htn]
    · have hnt : ¬n = t := fun h => htn h.symm
      simp only [bump, if_neg htn, List.map_cons, List.mem_cons]
      rw [ih]
      by_cases hmem : n ∈ es.map Prod.fst
      · simp [hmem, hnt]
      · simp [hmem, hnt]

theorem keys_addPair (m : Model) (c n : Tok) :
    (addPair m c n).map Prod.fst =
      if c ∈ m.map Prod.fst then m.map Prod.fst else m.map Prod.fst ++ [c] := by
  induction m with
  | nil => simp [addPair]
  | cons e r ih =>
    obtain ⟨t, es⟩ := e
    by_cases htc : t = c
    · simp [addPair, htc]
    · have hct : ¬c = t := fun h => htc h.symm
      simp only [addPair, if_neg htc, List.map_cons, List.mem_cons]
      rw [ih]
      by_cases hmem : c ∈ r.map Prod.fst
      · simp [hmem, hct]
      · simp [hmem, hct]

theorem mem_addPair (m : Model) (c n : Tok) (ce : Tok × List (Tok × Nat))
    (h : ce ∈ addPair m c n) :
    ce ∈ m ∨ ce = (c, [(n, 1)]) ∨ ∃ es, (ce.1, es) ∈ m ∧ ce.2 = bump es n := by
  induction m with
  | nil =>
    simp [addPair] at h
    exact Or.inr (Or.inl h)
  | cons e r ih =>
    obtain ⟨t, es⟩ := e
    by_cases htc : t = c
    · simp only [addPair, if_pos htc] at h
      rcases List.mem_cons.mp h with h1 | h1
      · exact Or.inr (Or.inr ⟨es, by simp [h1], by simp [h1]⟩)
      · exact Or.inl (List.mem_cons_of_mem _ h1)
    · simp only [addPair, if_neg htc] at h
      rcases List.mem_cons.mp h with h1 | h1
      · exact Or.inl (h1 ▸ List.mem_cons_self _ _)
      · rcases ih h1 with h2 | h2 | ⟨es', h2, h3⟩
        · exact Or.inl (List.mem_cons_of_mem _ h2)
        · exact Or.inr (Or.inl h2)
        · exact Or.inr (Or.inr ⟨es', List.mem_cons_of_mem _ h2, h3⟩)

theorem WFModel_addPair {m : Model} (c n : Tok) (hwf : WFModel m) :
    WFModel (addPair m c n) := by
  obtain ⟨hkeys, hinner⟩ := hwf
  constructor
  · rw [keys_addPair]
    by_cases hmem : c ∈ m.map Prod.fst
    · simpa [hmem] using hkeys
    · simp only [if_neg hmem]
      rw [List.nodup_append]
      exact ⟨hkeys, List.nodup_singleton c, by simpa using hmem⟩
  · intro ce hce
    rcases mem_addPair m c n ce hce with h1 | h1 | ⟨es, h1, h2⟩
    · exact hinner ce h1
    · simp [h1]
    · obtain ⟨hnod, hne⟩ := hinner (ce.1, es) h1
      refine ⟨?_, ?_⟩
      · rw [h2, keys_bump]
        by_cases hn : n ∈ es.map Prod.fst
        · simpa [hn] using hnod
        · simp only [if_neg hn]
          rw [List.nodup_append]
          exact ⟨hnod, List.nodup_singleton n, by simpa using hn⟩
      · rw [h2]
        cases es with
        | nil => simp [bump]
        | cons e es' =>
          obtain ⟨t, k⟩ := e
          by_cases htn : t = n <;> simp [bump, htn]

theorem WFModel_foldl_addPair (ps : List (Tok × Tok)) {m : Model} (hwf : WFModel m) :
    WFModel (ps.foldl (fun acc pr => addPair acc pr.1 pr.2) m) := by
  induction ps generalizing m with
  | nil => exact hwf
  | cons pr ps ih => exact ih (WFModel_addPair pr.1 pr.2 hwf)

theorem WFModel_AddTextToModel {m : Model} (input : String) (hwf : WFModel m) :
    WFModel (AddTextToModel m input) := by
  rw [AddTextToModel]
  generalize splitSentences (goFields input) = ss
  induction ss generalizing m with
  | nil => exact hwf
  | cons s ss ih => exact ih (WFModel_foldl_addPair _ hwf)

theorem WFModel_BuildModel (input : String) : WFModel (BuildModel input) :=
  WFModel_AddTextToModel input ⟨List.nodup_nil, by simp⟩

theorem bumpWeighted_notmem (es : List (Tok × Nat)) (n : Tok) (k : Nat)
    (h : n ∉ es.map Prod.fst) :
    addWeighted.bumpWeighted es n k = es ++ [(n, k)] := by
  induction es with
  | nil => simp [addWeighted.bumpWeighted]
  | cons e es ih =>
    obtain ⟨t, j⟩ := e
    simp only [List.map_cons, List.mem_cons] at h
    push_neg at h
    rw [addWeighted.bumpWeighted, if_neg (fun ht => h.1 ht.symm), ih h.2]
    simp

theorem addWeighted_notmem (m : Model) (c n : Tok) (k : Nat)
    (h : c ∉ m.map Prod.fst) :
    addWeighted m c n k = m ++ [(c, [(n, k)])] := by
  induction m with
  | nil => simp [addWeighted]
  | cons e r ih =>
    obtain ⟨t, es⟩ := e
    simp only [List.map_cons, List.mem_cons] at h
    push_neg at h
    rw [addWeighted, if_neg (fun ht => h.1 ht.symm), ih h.2]
    simp

theorem addWeighted_last (m0 : Model) (c n : Tok) (k : Nat) (es : List (Tok × Nat))
    (hc : c ∉ m0.map Prod.fst) (hn : n ∉ es.map Prod.fst) :
    addWeighted (m0 ++ [(c, es)]) c n k = m0 ++ [(c, es ++ [(n, k)])] := by
  induction m0 with
  | nil => simp [addWeighted, bumpWeighted_notmem es n k hn]
  | cons e r ih =>
    obtain ⟨t, es'⟩ := e
    simp only [List.map_cons, List.mem_cons] at hc
    push_neg at hc
    have hneq : ¬t = c := fun ht => hc.1 ht.symm
    rw [List.cons_append]
    rw [show addWeighted ((t, es') :: (r ++ [(c, es)])) c n k =
        (t, es') :: addWeighted (r ++ [(c, es)]) c n k from by
      simp [addWeighted, hneq]]
    rw [ih hc.2, List.cons_append]

theorem load_bucket_fold (m0 : Model) (c : Tok) (hc : c ∉ m0.map Prod.fst) :
    ∀ (es acc : List (Tok × Nat)),
      ((acc ++ es).map Prod.fst).Nodup →
      (es.map (fun nk => (c, nk.1, nk.2))).foldl
          (fun m t => addWeighted m t.1 t.2.1 t.2.2) (m0 ++ [(c, acc)]) =
        m0 ++ [(c, acc ++ es)] := by
  intro es
  induction es with
  | nil => intro acc _; simp
  | cons e es ih =>
    intro acc hnod
    obtain ⟨n, k⟩ := e
    simp only [List.map_cons, List.foldl_cons]
    have hn : n ∉ acc.map Prod.fst := by
      intro hmem
      have : ¬(acc.map Prod.fst ++ n :: es.map Prod.fst).Nodup := by
        intro hd
        rw [List.nodup_append] at hd
        exact hd.2.2 hmem (List.mem_cons_self _ _)
      exact this (by simpa using hnod)
    rw [addWeighted_last m0 c n k acc hc hn]
    have := ih (acc ++ [(n, k)]) (by simpa using hnod)
    simpa using this

theorem load_serialize_fold (m : Model) :
    ∀ m0 : Model, (∀ c ∈ m.map Prod.fst, c ∉ m0.map Prod.fst) → WFModel m →
      (SerializeModel m).foldl (fun acc t => addWeighted acc t.1 t.2.1 t.2.2) m0 =
        m0 ++ m := by
  induction m with
  | nil => intro m0 _ _; simp [SerializeModel]
  | cons ce r ih =>
    intro m0 hdisj hwf
    obtain ⟨c, es⟩ := ce
    obtain ⟨hkeys, hinner⟩ := hwf
    obtain ⟨hnod, hne⟩ := hinner (c, es) (List.mem_cons_self _ _)
    have hc0 : c ∉ m0.map Prod.fst := hdisj c (by simp)
    rw [show SerializeModel ((c, es) :: r) =
        es.map (fun nk => (c, nk.1, nk.2)) ++ SerializeModel r from by
      simp [SerializeModel]]
    rw [List.foldl_append]
    cases es with
    | nil => exact absurd rfl hne
    | cons e0 es0 =>
      obtain ⟨n0, k0⟩ := e0
      simp only [List.map_cons, List.foldl_cons]
      rw [addWeighted_notmem m0 c n0 k0 hc0]
      have hfold := load_bucket_fold m0 c hc0 es0 [(n0, k0)] (by simpa using hnod)
      simp only [List.singleton_append] at hfold
      rw [hfold]
      have hckeys : c ∉ r.map Prod.fst := by
        simp only [List.map_cons] at hkeys
        exact (List.nodup_cons.mp hkeys).1
      have := ih (m0 ++ [(c, (n0, k0) :: es0)])
        (fun c' hc' => by
          simp only [List.map_append, List.map_cons, List.map_nil, List.mem_append,
            List.mem_singleton]
          rintro (h1 | h1)
          · exact hdisj c' (List.mem_cons_of_mem _ hc') h1
          · exact hckeys (h1 ▸ hc'))
        ⟨(List.nodup_cons.mp (by simpa using hkeys)).2,
         fun ce' hce' => hinner ce' (List.mem_cons_of_mem _ hce')⟩
      rw [this, List.append_assoc]
      simp

/-- Claim C3: deserializing the serialization of the model trained from any
text on an empty model yields exactly the same model, hence the same
(context, next-token, count) triples. -/
theorem LoadModel_SerializeModel_BuildModel (input : String) :
    LoadModel (SerializeModel (BuildModel input)) = BuildModel input := by
  have h := load_serialize_fold (BuildModel input) [] (by simp) (WFModel_BuildModel input)
  simpa [LoadModel] using h

/-! ## Page generation and the clock -/

/-- The clock-free components of a generated page: its link, content,
related links and author. -/
def pageCore (pg : GeneratedPage) : PageLink × String × List PageLink × String :=
  (pg.Link, pg.Content, pg.Links, pg.Author)

theorem generatePage_map_pageCore (m : Model) (seed now now' : Int) (fuel : Nat) :
    (GeneratePage m seed now fuel).map pageCore =
      (GeneratePage m seed now' fuel).map pageCore := by
  rw [GeneratePage, GeneratePage]
  cases h1 : createLinkFromSeed seed (mkPrng seed) m fuel with
  | none => rfl
  | some r1 =>
    obtain ⟨l, p1⟩ := r1
    cases h2 : createParagraph p1 m fuel with
    | none => simp [h2]
    | some r2 =>
      obtain ⟨content, p2⟩ := r2
      cases h3 : createLinks p2 m fuel with
      | none => simp [h2, h3]
      | some r3 => simp [h2, h3, generateRandomDate, pageCore]

theorem genPostsLoop_map_pageCore (m : Model) (now now' : Int) (fuel : Nat) :
    ∀ seeds : List Int,
      (genPostsLoop m now fuel seeds).map (List.map pageCore) =
        (genPostsLoop m now' fuel seeds).map (List.map pageCore) := by
  intro seeds
  induction seeds with
  | nil => rfl
  | cons s rest ih =>
    have hpage := generatePage_map_pageCore m s now now' fuel
    rw [genPostsLoop, genPostsLoop]
    cases h1 : GeneratePage m s now fuel with
    | none =>
      cases h2 : GeneratePage m s now' fuel with
      | none => rfl
      | some pg' =>
        rw [h1, h2] at hpage
        exact absurd hpage (by simp)
    | some pg =>
      cases h2 : GeneratePage m s now' fuel with
      | none =>
        rw [h1, h2] at hpage
        exact absurd hpage (by simp)
      | some pg' =>
        rw [h1, h2] at hpage
        have hcore : pageCore pg = pageCore pg' := by simpa using hpage
        cases hl : genPostsLoop m now fuel rest with
        | none =>
          cases hl' : genPostsLoop m now' fuel rest with
          | none => rfl
          | some l' =>
            rw [hl, hl'] at ih
            exact absurd ih (by simp)
        | some l =>
          cases hl' : genPostsLoop m now' fuel rest with
          | none =>
            rw [hl, hl'] at ih
            exact absurd ih (by simp)
          | some l' =>
            rw [hl, hl'] at ih
            have hmap : List.map pageCore l = List.map pageCore l' := by simpa using ih
            simp [List.map_cons, hcore, hmap]

/-- Claim C1 (counterexample): two calls of `GeneratePage` with the same
seed and the same model but made at different wall-clock instants return
different `GeneratedPage` values, so the page is not a function of
(seed, model) only — `generateRandomDate` reads `time.Now()`. -/
theorem GeneratePage_not_function_of_seed_model :
    (GeneratePage (BuildModel "a.") 1 0 8).isSome = true
    ∧ GeneratePage (BuildModel "a.") 1 0 8 ≠ GeneratePage (BuildModel "a.") 1 1 8 := by
  constructor
  · decide
  · decide

/-- Claim C1 (amended): for every seed and model, the Link, Content, Links
and Author of the generated page are a function of (seed, model) only — two
calls agree on them regardless of the clock — while LastUpdated depends in
addition on the wall-clock time of generation; with the clock fixed the
whole page is reproducible. -/
theorem GeneratePage_core_deterministic (m : Model) (seed now now' : Int) (fuel : Nat) :
    (GeneratePage m seed now fuel).map pageCore =
      (GeneratePage m seed now' fuel).map pageCore :=
  generatePage_map_pageCore m seed now now' fuel

/-- Claim C7 (counterexample): two calls of `GenerateHomePagePosts` within
the same day-bucket (Unix times 0 and 1, both in bucket 0) return different
page sequences, because every page's LastUpdated tracks the exact clock. -/
theorem GenerateHomePagePosts_depends_on_clock :
    (0 : Int) / 86400 = (1 : Int) / 86400
    ∧ (GenerateHomePagePosts (BuildModel "a.") 1 0 8).isSome = true
    ∧ GenerateHomePagePosts (BuildModel "a.") 1 0 8 ≠
        GenerateHomePagePosts (BuildModel "a.") 1 1 8 := by
  refine ⟨by decide, by decide, by decide⟩

/-- Claim C7 (amended): `GenerateHomePagePosts` uses base seed
`now / 86400` and page seeds `base + i*1000` for `i` in `[0, count)`; two
calls within the same day-bucket use identical seed sequences and return
pages identical up to LastUpdated (which tracks the exact clock), and calls
in different day-buckets use different seed sequences. -/
theorem GenerateHomePagePosts_spec :
    (∀ (m : Model) (cnt : Nat) (now : Int) (fuel : Nat),
        GenerateHomePagePosts m cnt now fuel =
          genPostsLoop m now fuel
            ((List.range cnt).map (fun (i : Nat) => now / 86400 + (i : Int) * 1000)))
    ∧ (∀ (m : Model) (cnt : Nat) (now now' : Int) (fuel : Nat),
        now / 86400 = now' / 86400 →
          homePageSeeds now cnt = homePageSeeds now' cnt
          ∧ (GenerateHomePagePosts m cnt now fuel).map (List.map pageCore) =
              (GenerateHomePagePosts m cnt now' fuel).map (List.map pageCore))
    ∧ (∀ (cnt : Nat) (now now' : Int),
        now / 86400 ≠ now' / 86400 → 0 < cnt →
          homePageSeeds now cnt ≠ homePageSeeds now' cnt) := by
  refine ⟨fun m cnt now fuel => rfl, fun m cnt now now' fuel hb => ⟨?_, ?_⟩,
    fun cnt now now' hb hcnt heq => ?_⟩
  · rw [homePageSeeds, homePageSeeds, hb]
  · rw [GenerateHomePagePosts, GenerateHomePagePosts,
      show homePageSeeds now cnt = homePageSeeds now' cnt from by
        rw [homePageSeeds, homePageSeeds, hb]]
    exact genPostsLoop_map_pageCore m now now' fuel _
  · obtain ⟨k, rfl⟩ : ∃ k, cnt = k + 1 :=
      ⟨cnt - 1, by omega⟩
    rw [homePageSeeds, homePageSeeds, List.range_succ_eq_map, List.map_cons,
      List.map_cons] at heq
    have h1 := (List.cons.injEq _ _ _ _ ▸ heq).1
    apply hb
    have h1' : now / 86400 + ((0 : Nat) : Int) * 1000 =
        now' / 86400 + ((0 : Nat) : Int) * 1000 := h1
    push_cast at h1'
    omega

/-- Witness for `GenerateHomePagePosts_spec` at concrete inputs. -/
theorem GenerateHomePagePosts_spec_witness :
    (homePageSeeds 0 2 = homePageSeeds 86399 2
      ∧ (GenerateHomePagePosts (BuildModel "a.") 2 0 8).map (List.map pageCore) =
          (GenerateHomePagePosts (BuildModel "a.") 2 86399 8).map (List.map pageCore))
    ∧ homePageSeeds 0 1 ≠ homePageSeeds 86400 1 :=
  ⟨GenerateHomePagePosts_spec.2.1 (BuildModel "a.") 2 0 86399 8 (by decide),
   GenerateHomePagePosts_spec.2.2 1 0 86400 (by decide) (by decide)⟩

/-! ## Slug defects -/

/-- Claim C6 (code evaluated at the failing input): the title `"a - b"`
slugifies to `"a--b"`, which contains consecutive hyphens, and slugifying
again gives the different string `"a-b"`, so the slug pipeline is neither
consecutive-hyphen-free nor idempotent: the single-pass
`strings.ReplaceAll(link, "--", "-")` turns the three hyphens produced by
`" - "` into two, contradicting the code's own comment "now remove any
duplicate dashes". -/
theorem slugify_consecutive_hyphens :
    slugify "a - b" = "a--b" ∧ slugify (slugify "a - b") = "a-b" := by
  refine ⟨by decide, by decide⟩

/-! ## Swallowed sampling failures -/

theorem genLoop_nil_none :
    ∀ (fuel : Nat) (cur : Tok) (p : Prng), cur ≠ Tok.stop → genLoop [] fuel cur p = none := by
  intro fuel
  induction fuel with
  | zero => intro cur p _; rfl
  | succ fuel ih =>
    intro cur p hcur
    rw [genLoop, if_neg hcur]
    rw [show sampleDiscard [] cur p = (Tok.word "", p) from by
      simp [sampleDiscard, sampleDeterministic, lookupCtx, alphabet]]
    change Option.map (fun r => (Tok.word "" :: r.1, r.2)) (genLoop [] fuel (Tok.word "") p)
      = none
    rw [ih (Tok.word "") p (by simp)]
    rfl

/-- Claim C2 (code evaluated at the failing input): on the empty model the
very first sampling step fails, yet `GenerateStoryFromPrng` never returns a
typed error: the `next, _ :=` assignment (part_000:90) discards the
sampling error and the loop keeps pushing the zero-value token, so for
every fuel bound the generation loop is still running (`none` here means
the loop has not terminated) and no failure is ever surfaced to the
caller. -/
theorem GenerateStoryFromPrng_swallows_sampling_failure :
    (∀ p : Prng, sampleDeterministic [] Tok.start p = none)
    ∧ (∀ (fuel : Nat) (p : Prng), GenerateStoryFromPrng [] p fuel = none) := by
  constructor
  · intro p
    simp [sampleDeterministic, lookupCtx, alphabet]
  · intro fuel p
    rw [GenerateStoryFromPrng, genTokens, genLoop_nil_none fuel Tok.start p (by simp)]
    rfl

/-! ## Model cache behaviour -/

theorem mem_insertDesc (x y : MarkovChainModel) (l : List MarkovChainModel) :
    x ∈ insertDesc y l ↔ x = y ∨ x ∈ l := by
  induction l with
  | nil => simp [insertDesc]
  | cons z r ih =>
    by_cases h : z.createdAt ≤ y.createdAt
    · simp [insertDesc, h]
    · simp only [insertDesc, if_neg h, List.mem_cons, ih]
      tauto

theorem mem_sortDesc (x : MarkovChainModel) (l : List MarkovChainModel) :
    x ∈ sortDesc l ↔ x ∈ l := by
  induction l with
  | nil => simp [sortDesc]
  | cons y r ih =>
    rw [show sortDesc (y :: r) = insertDesc y (sortDesc r) from rfl, mem_insertDesc]
    simp [ih]

theorem pairwise_insertDesc (y : MarkovChainModel) (l : List MarkovChainModel)
    (hl : l.Pairwise (fun a b => b.createdAt ≤ a.createdAt)) :
    (insertDesc y l).Pairwise (fun a b => b.createdAt ≤ a.createdAt) := by
  induction l with
  | nil => simp [insertDesc]
  | cons z r ih =>
    obtain ⟨hz, hr⟩ := List.pairwise_cons.mp hl
    by_cases h : z.createdAt ≤ y.createdAt
    · rw [insertDesc, if_pos h]
      refine List.pairwise_cons.mpr ⟨?_, hl⟩
      intro b hb
      rcases List.mem_cons.mp hb with hb | hb
      · exact hb ▸ h
      · exact le_trans (hz b hb) h
    · rw [insertDesc, if_neg h]
      refine List.pairwise_cons.mpr ⟨?_, ih hr⟩
      intro b hb
      rcases (mem_insertDesc b y r).mp hb with hb | hb
      · exact hb ▸ le_of_lt (lt_of_not_le h)
      · exact hz b hb

theorem pairwise_sortDesc (l : List MarkovChainModel) :
    (sortDesc l).Pairwise (fun a b => b.createdAt ≤ a.createdAt) := by
  induction l with
  | nil => exact List.Pairwise.nil
  | cons y r ih => exact pairwise_insertDesc y (sortDesc r) ih

/-- Claim C8: `getLatestModel` returns the cached model when one is present;
otherwise it fetches the single most-recently-created model from the store
(the head of the newest-first ordering, whose `createdAt` is maximal),
caches it and returns it; on an empty store it returns an error and the
cache stays empty; and after `clearModelCache` the next call re-reads from
the store exactly as with an empty cache. -/
theorem getLatestModel_spec :
    (∀ (m : MarkovChainModel) (store : List MarkovChainModel),
        getLatestModel (some m) store = (Except.ok m, some m))
    ∧ (∀ (store : List MarkovChainModel) (m : MarkovChainModel)
          (rest : List MarkovChainModel),
        sortDesc store = m :: rest →
          getLatestModel none store = (Except.ok m, some m)
          ∧ m ∈ store ∧ ∀ m' ∈ store, m'.createdAt ≤ m.createdAt)
    ∧ getLatestModel none [] = (Except.error "no models found in database", none)
    ∧ (∀ (cache : Option MarkovChainModel) (store : List MarkovChainModel),
        getLatestModel (clearModelCache cache) store = getLatestModel none store) := by
  refine ⟨fun m store => rfl, fun store m rest h => ⟨?_, ?_, ?_⟩, rfl,
    fun cache store => rfl⟩
  · rw [getLatestModel, GetAllMarkovChainModels, h]
    rfl
  · exact (mem_sortDesc m store).mp (h ▸ List.mem_cons_self _ _)
  · intro m' hm'
    have hm's : m' ∈ sortDesc store := (mem_sortDesc m' store).mpr hm'
    rw [h] at hm's
    rcases List.mem_cons.mp hm's with heq | htail
    · exact heq ▸ le_refl _
    · have hp := pairwise_sortDesc store
      rw [h] at hp
      exact (List.pairwise_cons.mp hp).1 m' htail

/-- Witness for `getLatestModel_spec` at a concrete two-model store. -/
theorem getLatestModel_spec_witness :
    getLatestModel none [⟨1, "x", 5⟩, ⟨2, "y", 9⟩] =
        (Except.ok (⟨2, "y", 9⟩ : MarkovChainModel), some ⟨2, "y", 9⟩)
    ∧ (⟨2, "y", 9⟩ : MarkovChainModel) ∈
        ([⟨1, "x", 5⟩, ⟨2, "y", 9⟩] : List MarkovChainModel)
    ∧ ∀ m' ∈ ([⟨1, "x", 5⟩, ⟨2, "y", 9⟩] : List MarkovChainModel),
        m'.createdAt ≤ (⟨2, "y", 9⟩ : MarkovChainModel).createdAt :=
  getLatestModel_spec.2.1 [⟨1, "x", 5⟩, ⟨2, "y", 9⟩] ⟨2, "y", 9⟩ [⟨1, "x", 5⟩] (by decide)

/-! ## Streaming delays -/

theorem next_bounds (p : Prng) : 0 ≤ (p.next).1 ∧ (p.next).1 < prngMod :=
  ⟨Int.emod_nonneg _ (by rw [prngMod]; omega),
   Int.emod_lt_of_pos _ (by rw [prngMod]; omega)⟩

theorem float64_bounds (p : Prng) : 0 ≤ (p.float64).1 ∧ (p.float64).1 < 1 := by
  obtain ⟨h0, h1⟩ := next_bounds p
  rw [Prng.float64]
  constructor
  · apply div_nonneg
    · exact_mod_cast h0
    · rw [prngMod]; norm_num
  · rw [div_lt_one (by rw [prngMod]; norm_num)]
    exact_mod_cast h1

theorem addJitter_bounds (p : Prng) (b : Int) (hb : 0 ≤ b) :
    7 * b ≤ 10 * (addJitter p b).1 ∧ 10 * (addJitter p b).1 ≤ 13 * b := by
  obtain ⟨hf0, hf1⟩ := float64_bounds p
  rw [addJitter]
  set f := (p.float64).1 with hfdef
  set j : ℚ := (f * 2 - 1) * ((b : ℚ) * (3 / 10)) with hjdef
  have hbq : (0 : ℚ) ≤ (b : ℚ) := by exact_mod_cast hb
  have hj1 : -(3 / 10) * (b : ℚ) ≤ j := by
    rw [hjdef]
    nlinarith
  have hj2 : j ≤ 3 / 10 * (b : ℚ) := by
    rw [hjdef]
    nlinarith
  have key : (7 : ℚ) * b ≤ 10 * (b + goTrunc j) ∧ (10 : ℚ) * (b + goTrunc j) ≤ 13 * b := by
    rw [goTrunc]
    by_cases hjpos : 0 ≤ j
    · rw [if_pos hjpos]
      have ht1 : (0 : ℚ) ≤ (⌊j⌋ : ℚ) := by exact_mod_cast Int.floor_nonneg.mpr hjpos
      have ht2 : (⌊j⌋ : ℚ) ≤ j := Int.floor_le j
      constructor <;> nlinarith
    · rw [if_neg hjpos]
      push_neg at hjpos
      have ht1 : j ≤ (⌈j⌉ : ℚ) := Int.le_ceil j
      have ht2' : ⌈j⌉ ≤ (0 : ℤ) := Int.ceil_le.mpr (by exact_mod_cast le_of_lt hjpos)
      have ht2 : (⌈j⌉ : ℚ) ≤ 0 := by exact_mod_cast ht2'
      constructor <;> nlinarith
  constructor
  · exact_mod_cast key.1
  · exact_mod_cast key.2

theorem streamTitleLoop_bounds (cs : List Char) :
    ∀ p : Prng,
      ((streamTitleLoop cs p).1).length = cs.length
      ∧ ∀ ev ∈ (streamTitleLoop cs p).1,
          7 * (wordDelay / 3) ≤ 10 * ev.2 ∧ 10 * ev.2 ≤ 13 * (wordDelay / 3) := by
  induction cs with
  | nil => intro p; simp [streamTitleLoop]
  | cons c cs ih =>
    intro p
    obtain ⟨hlen, hmem⟩ := ih (addJitter p (wordDelay / 3)).2
    rw [streamTitleLoop]
    refine ⟨by simpa using hlen, ?_⟩
    intro ev hev
    rcases List.mem_cons.mp hev with hev | hev
    · have hbase : (0 : Int) ≤ wordDelay / 3 := by rw [wordDelay]; decide
      have := addJitter_bounds p (wordDelay / 3) hbase
      rw [hev]
      exact this
    · exact hmem ev hev

theorem headD_mem {α : Type} (l : List α) (d : α) (h : l ≠ []) : l.headD d ∈ l := by
  cases l with
  | nil => exact absurd rfl h
  | cons a t => simp [List.headD]

/-- Claim C9 (counterexample): streaming the two-character title `"ab"`
performs two write+flush pairs, but with target duration D = 1 second and
L = 2 the delays do not lie within `[0.7 × D/L, 1.3 × D/L]` — the code's
per-character base delay is the fixed `wordDelay / 3` (50ms/3 ns) and is
not derived from any region target duration. -/
theorem streamTitleLoop_not_target_duration_based :
    ((streamTitleLoop ("ab" : String).data (mkPrng 0)).1).length = ("ab" : String).length
    ∧ ¬(∀ ev ∈ (streamTitleLoop ("ab" : String).data (mkPrng 0)).1,
        7 * ((1000000000 : Int) / 2) ≤ 10 * ev.2
        ∧ 10 * ev.2 ≤ 13 * ((1000000000 : Int) / 2)) := by
  have h := streamTitleLoop_bounds ("ab" : String).data (mkPrng 0)
  refine ⟨h.1, ?_⟩
  intro hall
  have hlen : ((streamTitleLoop ("ab" : String).data (mkPrng 0)).1).length = 2 := h.1
  cases hcase : (streamTitleLoop ("ab" : String).data (mkPrng 0)).1 with
  | nil => rw [hcase] at hlen; simp at hlen
  | cons a t =>
    have ha : a ∈ (streamTitleLoop ("ab" : String).data (mkPrng 0)).1 := by
      rw [hcase]; exact List.mem_cons_self _ _
    have hupper := (h.2 a ha).2
    have hlower := (hall a ha).1
    have e1 : wordDelay / 3 = 16666666 := by decide
    have e2 : (1000000000 : Int) / 2 = 500000000 := by decide
    rw [e1] at hupper
    rw [e2] at hlower
    omega

/-- Claim C9 (amended): streaming a title of length L performs exactly L
write+flush pairs (one per character, in order), and each is followed by a
delay within ±30% of the fixed per-character base delay `wordDelay / 3`
(50ms/3, independent of any target duration), i.e.
`0.7 × (wordDelay/3) ≤ delay ≤ 1.3 × (wordDelay/3)` stated over integers
as `7·(wordDelay/3) ≤ 10·delay ≤ 13·(wordDelay/3)`. -/
theorem streamTitleLoop_spec (title : String) (p : Prng) :
    ((streamTitleLoop title.data p).1).length = title.length
    ∧ ∀ ev ∈ (streamTitleLoop title.data p).1,
        7 * (wordDelay / 3) ≤ 10 * ev.2 ∧ 10 * ev.2 ≤ 13 * (wordDelay / 3) :=
  streamTitleLoop_bounds title.data p

/-- Witness for `streamTitleLoop_spec` at a concrete title and seed. -/
theorem streamTitleLoop_spec_witness :
    7 * (wordDelay / 3) ≤
        10 * (((streamTitleLoop ("ab" : String).data (mkPrng 0)).1).headD ("", 0)).2
    ∧ 10 * (((streamTitleLoop ("ab" : String).data (mkPrng 0)).1).headD ("", 0)).2 ≤
        13 * (wordDelay / 3) :=
  (streamTitleLoop_spec "ab" (mkPrng 0)).2
    (((streamTitleLoop ("ab" : String).data (mkPrng 0)).1).headD ("", 0))
    (headD_mem _ _ (by
      intro hnil
      have hlen := (streamTitleLoop_spec "ab" (mkPrng 0)).1
      rw [hnil] at hlen
      exact absurd hlen.symm (by decide)))

/-! ## Decimal printing and handler-side parsing -/

theorem printDecAux_acc (fuel : Nat) :
    ∀ (n : Nat) (acc : List Char),
      printDecAux fuel n acc = printDecAux fuel n [] ++ acc := by
  induction fuel with
  | zero => intro n acc; rfl
  | succ fuel ih =>
    intro n acc
    by_cases h : n < 10
    · rw [printDecAux, if_pos h, printDecAux, if_pos h]
      rfl
    · rw [printDecAux, if_neg h, printDecAux, if_neg h, ih (n / 10),
        ih (n / 10) (digitChar (n % 10) :: [])]
      simp

theorem printDecAux_fuel_irrel (fuel : Nat) :
    ∀ (fuel' n : Nat) (acc : List Char), n < fuel → n < fuel' →
      printDecAux fuel n acc = printDecAux fuel' n acc := by
  induction fuel with
  | zero => intro fuel' n acc h _; omega
  | succ fuel ih =>
    intro fuel' n acc h h'
    cases fuel' with
    | zero => omega
    | succ fuel' =>
      by_cases h10 : n < 10
      · rw [printDecAux, if_pos h10, printDecAux, if_pos h10]
      · have hdiv : n / 10 < n := Nat.div_lt_self (by omega) (by omega)
        rw [printDecAux, if_neg h10, printDecAux, if_neg h10]
        exact ih fuel' (n / 10) _ (by omega) (by omega)

theorem decDigits_lt10 {n : Nat} (h : n < 10) : decDigits n = [digitChar n] := by
  rw [decDigits, printDecAux, if_pos h]

theorem decDigits_ge10 {n : Nat} (h : 10 ≤ n) :
    decDigits n = decDigits (n / 10) ++ [digitChar (n % 10)] := by
  have hdiv : n / 10 < n := Nat.div_lt_self (by omega) (by omega)
  rw [decDigits, printDecAux, if_neg (by omega),
    printDecAux_fuel_irrel n (n / 10 + 1) (n / 10) _ (by omega) (by omega),
    printDecAux_acc]
  rfl

theorem decDigits_ne_nil (n : Nat) : decDigits n ≠ [] := by
  by_cases h : n < 10
  · rw [decDigits_lt10 h]
    simp
  · rw [decDigits_ge10 (by omega)]
    simp

theorem isDigitCh_digitChar (d : Nat) : isDigitCh (digitChar d) = true := by
  match d with
  | 0 | 1 | 2 | 3 | 4 | 5 | 6 | 7 | 8 => decide
  | (k + 9) => rw [show digitChar (k + 9) = '9' from by rcases k with _ | k <;> rfl]; decide

theorem digitChar_ne_hyphen (d : Nat) : digitChar d ≠ '-' := by
  match d with
  | 0 | 1 | 2 | 3 | 4 | 5 | 6 | 7 | 8 => decide
  | (k + 9) => rw [show digitChar (k + 9) = '9' from by rcases k with _ | k <;> rfl]; decide

theorem digitChar_val {d : Nat} (h : d < 10) : (digitChar d).toNat - 48 = d := by
  match d, h with
  | 0, _ | 1, _ | 2, _ | 3, _ | 4, _ | 5, _ | 6, _ | 7, _ | 8, _ | 9, _ => decide

theorem decDigits_all_digit (n : Nat) : ∀ c ∈ decDigits n, isDigitCh c = true := by
  induction n using Nat.strong_induction_on with
  | _ n ih =>
    by_cases h : n < 10
    · rw [decDigits_lt10 h]
      intro c hc
      rw [List.mem_singleton.mp hc]
      exact isDigitCh_digitChar n
    · rw [decDigits_ge10 (by omega)]
      intro c hc
      rcases List.mem_append.mp hc with hc | hc
      · exact ih (n / 10) (Nat.div_lt_self (by omega) (by omega)) c hc
      · rw [List.mem_singleton.mp hc]
        exact isDigitCh_digitChar _

theorem parseUintAux_append (l1 l2 : List Char) :
    ∀ acc : Nat,
      parseUintAux (l1 ++ l2) acc =
        match parseUintAux l1 acc with
        | none => none
        | some a => parseUintAux l2 a := by
  induction l1 with
  | nil => intro acc; rfl
  | cons c l1 ih =>
    intro acc
    by_cases h : isDigitCh c
    · rw [List.cons_append, parseUintAux, if_pos h, parseUintAux, if_pos h, ih]
    · rw [List.cons_append, parseUintAux, if_neg h, parseUintAux, if_neg h]

theorem parseUintAux_decDigits (n : Nat) :
    ∀ acc : Nat,
      parseUintAux (decDigits n) acc = some (acc * 10 ^ (decDigits n).length + n) := by
  induction n using Nat.strong_induction_on with
  | _ n ih =>
    intro acc
    by_cases h : n < 10
    · rw [decDigits_lt10 h]
      simp only [parseUintAux]
      rw [if_pos (isDigitCh_digitChar n), digitChar_val h]
      simp
    · have hdiv : n / 10 < n := Nat.div_lt_self (by omega) (by omega)
      rw [decDigits_ge10 (by omega), parseUintAux_append, ih (n / 10) hdiv acc]
      simp only [parseUintAux]
      rw [if_pos (isDigitCh_digitChar _), digitChar_val (Nat.mod_lt n (by omega))]
      rw [List.length_append, List.length_singleton, pow_succ]
      refine congrArg some ?_
      have : n / 10 * 10 + n % 10 = n := by omega
      ring_nf
      omega

theorem takeWhile_digits_hyphen (l1 l2 : List Char) (h : ∀ c ∈ l1, c ≠ '-') :
    (l1 ++ '-' :: l2).takeWhile notHyphen = l1 := by
  induction l1 with
  | nil => simp [List.takeWhile_cons, notHyphen]
  | cons c l1 ih =>
    have hc : c ≠ '-' := h c (List.mem_cons_self _ _)
    have hb : notHyphen c = true := by simp [notHyphen, hc]
    rw [List.cons_append, List.takeWhile_cons, hb]
    rw [ih (fun x hx => h x (List.mem_cons_of_mem _ hx))]
    simp

theorem goParseInt_decDigits (n : Nat) (hbound : n ≤ 9223372036854775807) :
    goParseInt (String.mk (decDigits n)) = some (n : Int) := by
  rw [goParseInt]
  rcases hdd : decDigits n with _ | ⟨c, cs⟩
  · exact absurd hdd (decDigits_ne_nil n)
  · have hcdig : isDigitCh c = true :=
      decDigits_all_digit n c (hdd ▸ List.mem_cons_self _ _)
    have hchyp : ¬c = '-' := by
      intro hc
      rw [hc] at hcdig
      exact absurd hcdig (by decide)
    simp only [String.mk]
    rw [if_neg hchyp, ← hdd, parseUintAux_decDigits n 0]
    simp [hbound]

/-! ## Related links: seed/URL round trip -/

theorem isDigitCh_ne_hyphen {c : Char} (h : isDigitCh c = true) : c ≠ '-' := by
  intro hc
  rw [hc] at h
  exact absurd h (by decide)

theorem handlerParseId_of_url (s : Int) (slug : String) (h0 : 0 ≤ s)
    (h1 : s < 2147483648) :
    handlerParseId (stripPostPrefix ("/post/" ++ printInt s ++ "-" ++ slug)) = some s := by
  have hprint : printInt s = String.mk (decDigits s.toNat) := by
    rw [printInt, if_neg (by omega)]
  rw [handlerParseId, stripPostPrefix, hprint]
  rw [String.data_append, String.data_append, String.data_append]
  rw [show (String.mk (decDigits s.toNat)).data = decDigits s.toNat from rfl]
  rw [show ("/post/" : String).data = ['/', 'p', 'o', 's', 't', '/'] from rfl]
  rw [show ("-" : String).data = ['-'] from rfl]
  rw [show (['/', 'p', 'o', 's', 't', '/'] ++ decDigits s.toNat ++ ['-'] ++
      slug.data).drop 6 = decDigits s.toNat ++ '-' :: slug.data from by
    simp [List.append_assoc]]
  rw [takeWhile_digits_hyphen _ _
    (fun c hc => isDigitCh_ne_hyphen (decDigits_all_digit s.toNat c hc))]
  rw [goParseInt_decDigits s.toNat (by omega)]
  rw [Int.toNat_of_nonneg h0]

theorem createLinkFromSeed_shape {seed : Int} {p : Prng} {m : Model} {fuel : Nat}
    {link : PageLink} {p' : Prng}
    (h : createLinkFromSeed seed p m fuel = some (link, p')) :
    link.Seed = seed
    ∧ link.Url = "/post/" ++ printInt seed ++ "-" ++ slugify link.Title := by
  rw [createLinkFromSeed] at h
  cases hst : GenerateStoryFromPrng m p fuel with
  | none => rw [hst] at h; exact absurd h (by simp)
  | some r =>
    obtain ⟨t, p2⟩ := r
    rw [hst] at h
    have h2 := Option.some.inj h
    have hl := congrArg Prod.fst h2
    simp only at hl
    constructor
    · rw [← hl]
    · rw [← hl]

theorem createNewLink_shape {p : Prng} {m : Model} {fuel : Nat}
    {link : PageLink} {p' : Prng}
    (h : createNewLink p m fuel = some (link, p')) :
    0 ≤ link.Seed ∧ link.Seed < prngMod
    ∧ link.Url = "/post/" ++ printInt link.Seed ++ "-" ++ slugify link.Title := by
  rw [createNewLink] at h
  obtain ⟨hs0, hs1⟩ := next_bounds p
  cases hcl : createLinkFromSeed (p.int63).1 (mkPrng (p.int63).1) m fuel with
  | none =>
    rw [show (p.int63) = ((p.int63).1, (p.int63).2) from rfl] at h
    simp only [hcl] at h
    exact absurd h (by simp)
  | some r =>
    obtain ⟨link0, p0⟩ := r
    rw [show (p.int63) = ((p.int63).1, (p.int63).2) from rfl] at h
    simp only [hcl, Option.map_some] at h
    obtain ⟨hlink, _⟩ := Prod.mk.injEq .. ▸ Option.some.inj h
    obtain ⟨hseed, hurl⟩ := createLinkFromSeed_shape hcl
    subst hlink
    rw [hseed]
    exact ⟨hs0, hs1, hseed ▸ hurl⟩

theorem linksLoop_shape {m : Model} {fuel : Nat} :
    ∀ (k : Nat) (p : Prng) (links : List PageLink) (p' : Prng),
      linksLoop m fuel k p = some (links, p') →
      ∀ link ∈ links,
        0 ≤ link.Seed ∧ link.Seed < prngMod
        ∧ link.Url = "/post/" ++ printInt link.Seed ++ "-" ++ slugify link.Title := by
  intro k
  induction k with
  | zero =>
    intro p links p' h link hlink
    rw [linksLoop] at h
    obtain ⟨hl, _⟩ := Prod.mk.injEq .. ▸ Option.some.inj h
    rw [← hl] at hlink
    simp at hlink
  | succ k ih =>
    intro p links p' h link hlink
    rw [linksLoop] at h
    cases hcl : createNewLink p m fuel with
    | none => rw [hcl] at h; exact absurd h (by simp)
    | some r =>
      obtain ⟨l0, p0⟩ := r
      rw [hcl] at h
      have h' : Option.map (fun r => (l0 :: r.1, r.2)) (linksLoop m fuel k p0) =
          some (links, p') := h
      cases hrest : linksLoop m fuel k p0 with
      | none => rw [hrest] at h'; exact absurd h' (by simp)
      | some rr =>
        obtain ⟨ls, pend⟩ := rr
        rw [hrest] at h'
        have h2 : ((l0 :: ls, pend) : List PageLink × Prng) = (links, p') :=
          Option.some.inj h'
        have hl := congrArg Prod.fst h2
        simp only at hl
        rw [← hl] at hlink
        rcases List.mem_cons.mp hlink with h1 | h1
        · exact h1 ▸ createNewLink_shape hcl
        · exact ih p0 ls pend hrest link h1

/-- Claim C10: every related link of a page returned by `GeneratePage` has
a non-negative seed (drawn via `Int63`), its URL is exactly `"/post/"`
followed by the decimal seed, a hyphen and the slug, and the `/post/{id}`
handler's parsing rule — the integer before the first hyphen of the id
segment — recovers exactly that link's seed. -/
theorem GeneratePage_links_parse (m : Model) (seed now : Int) (fuel : Nat)
    (pg : GeneratedPage) (link : PageLink)
    (hpg : GeneratePage m seed now fuel = some pg) (hlink : link ∈ pg.Links) :
    0 ≤ link.Seed
    ∧ link.Url = "/post/" ++ printInt link.Seed ++ "-" ++ slugify link.Title
    ∧ handlerParseId (stripPostPrefix link.Url) = some link.Seed := by
  rw [GeneratePage] at hpg
  cases h1 : createLinkFromSeed seed (mkPrng seed) m fuel with
  | none => rw [h1] at hpg; exact absurd hpg (by simp)
  | some r1 =>
    obtain ⟨l1, p1⟩ := r1
    simp only [h1] at hpg
    cases h2 : createParagraph p1 m fuel with
    | none =>
      simp only [h2] at hpg
      exact absurd hpg (by simp)
    | some r2 =>
      obtain ⟨content, p2⟩ := r2
      simp only [h2] at hpg
      cases h3 : createLinks p2 m fuel with
      | none =>
        simp only [h3] at hpg
        exact absurd hpg (by simp)
      | some r3 =>
        obtain ⟨links, p3⟩ := r3
        simp only [h3] at hpg
        have hlinks : pg.Links = links := by
          rw [← Option.some.inj hpg]
        rw [hlinks] at hlink
        rw [createLinks] at h3
        obtain ⟨hs0, hs1, hurl⟩ :=
          linksLoop_shape _ _ _ _ h3 link hlink
        refine ⟨hs0, hurl, ?_⟩
        rw [hurl]
        exact handlerParseId_of_url link.Seed (slugify link.Title) hs0 hs1

/-- Witness for `GeneratePage_links_parse` at a concrete model and seed. -/
theorem GeneratePage_links_parse_witness :
    0 ≤ ((((GeneratePage (BuildModel "a.") 1 0 8).getD default).Links.headD
        default).Seed)
    ∧ (((GeneratePage (BuildModel "a.") 1 0 8).getD default).Links.headD
        default).Url =
      "/post/" ++ printInt ((((GeneratePage (BuildModel "a.") 1 0 8).getD
        default).Links.headD default).Seed) ++ "-" ++
        slugify ((((GeneratePage (BuildModel "a.") 1 0 8).getD
          default).Links.headD default).Title)
    ∧ handlerParseId (stripPostPrefix ((((GeneratePage (BuildModel "a.") 1 0
        8).getD default).Links.headD default).Url)) =
      some ((((GeneratePage (BuildModel "a.") 1 0 8).getD
        default).Links.headD default).Seed) :=
  GeneratePage_links_parse (BuildModel "a.") 1 0 8
    ((GeneratePage (BuildModel "a.") 1 0 8).getD default)
    (((GeneratePage (BuildModel "a.") 1 0 8).getD default).Links.headD default)
    (by decide) (by decide)

/-! ## Sequence generation: structure and sentinel freedom -/

/-- Invariants of a model as produced by training, sufficient for sentinel-free
generation: distinct contexts, non-empty inner lists of positive counts, and
count closure — every positive transition target is not START and is either
END or itself a context with a positive outgoing transition. -/
def ClosedModel (m : Model) : Prop :=
  (m.map Prod.fst).Nodup
  ∧ (∀ ce ∈ m, ce.2 ≠ [] ∧ ∀ nk ∈ ce.2, 0 < nk.2)
  ∧ ∀ c n : Tok, 0 < count m c n →
      n ≠ Tok.start ∧ (n = Tok.stop ∨ ∃ n', 0 < count m n n')

theorem genLoop_stop {m : Model} {fuel : Nat} {p : Prng} {r : List Tok × Prng}
    (h : genLoop m fuel Tok.stop p = some r) : r = ([], p) := by
  cases fuel with
  | zero => exact absurd h (by rw [genLoop]; simp)
  | succ fuel =>
    rw [genLoop, if_pos rfl] at h
    exact (Option.some.inj h).symm

theorem genLoop_structure {m : Model} :
    ∀ (fuel : Nat) (cur : Tok) (p : Prng) (rest : List Tok) (p' : Prng),
      genLoop m fuel cur p = some (rest, p') → cur ≠ Tok.stop →
      ∃ ws, rest = ws ++ [Tok.stop] ∧ Tok.stop ∉ ws := by
  intro fuel
  induction fuel with
  | zero => intro cur p rest p' h _; exact absurd h (by rw [genLoop]; simp)
  | succ fuel ih =>
    intro cur p rest p' h hcur
    rw [genLoop, if_neg hcur] at h
    have h' : Option.map (fun r => ((sampleDiscard m cur p).1 :: r.1, r.2))
        (genLoop m fuel (sampleDiscard m cur p).1 (sampleDiscard m cur p).2) =
        some (rest, p') := h
    cases hrec : genLoop m fuel (sampleDiscard m cur p).1 (sampleDiscard m cur p).2 with
    | none => rw [hrec] at h'; exact absurd h' (by simp)
    | some rr =>
      rw [hrec] at h'
      have h2 := Option.some.inj h'
      have hrest : rest = (sampleDiscard m cur p).1 :: rr.1 :=
        (congrArg Prod.fst h2).symm
      by_cases hnxt : (sampleDiscard m cur p).1 = Tok.stop
      · have hrr : rr = ([], (sampleDiscard m cur p).2) := by
          rw [show rr = (rr.1, rr.2) from rfl]
          have := genLoop_stop (hnxt ▸ hrec)
          rw [this]
        refine ⟨[], ?_, by simp⟩
        rw [hrest, hnxt, hrr]
        rfl
      · obtain ⟨ws', hws', hstop'⟩ :=
          ih (sampleDiscard m cur p).1 (sampleDiscard m cur p).2 rr.1 rr.2
            (by rw [hrec]) hnxt
        refine ⟨(sampleDiscard m cur p).1 :: ws', ?_, ?_⟩
        · rw [hrest, hws']
          rfl
        · intro hmem
          rcases List.mem_cons.mp hmem with h1 | h1
          · exact hnxt h1.symm
          · exact hstop' h1

theorem lookupCtx_some_mem {m : Model} {c : Tok} {es : List (Tok × Nat)}
    (h : lookupCtx m c = some es) : (c, es) ∈ m := by
  induction m with
  | nil => exact absurd h (by rw [lookupCtx]; simp)
  | cons ce r ih =>
    obtain ⟨t, es'⟩ := ce
    by_cases htc : t = c
    · rw [lookupCtx, if_pos htc] at h
      rw [htc, Option.some.inj h]
      exact List.mem_cons_self _ _
    · rw [lookupCtx, if_neg htc] at h
      exact List.mem_cons_of_mem _ (ih h)

theorem lookupCtx_none_not_mem {m : Model} {c : Tok}
    (h : lookupCtx m c = none) : c ∉ m.map Prod.fst := by
  induction m with
  | nil => simp
  | cons ce r ih =>
    obtain ⟨t, es'⟩ := ce
    by_cases htc : t = c
    · rw [lookupCtx, if_pos htc] at h
      exact absurd h (by simp)
    · rw [lookupCtx, if_neg htc] at h
      simp only [List.map_cons, List.mem_cons]
      rintro (h1 | h1)
      · exact htc h1.symm
      · exact ih h h1

theorem lookupCtx_isSome_of_mem {m : Model} {c : Tok}
    (h : c ∈ m.map Prod.fst) : ∃ es, lookupCtx m c = some es := by
  cases hl : lookupCtx m c with
  | none => exact absurd h (lookupCtx_none_not_mem hl)
  | some es => exact ⟨es, rfl⟩

theorem count_eq_countIn {m : Model} {c : Tok} {es : List (Tok × Nat)}
    (h : lookupCtx m c = some es) : ∀ n, count m c n = countIn es n := by
  induction m with
  | nil => exact absurd h (by rw [lookupCtx]; simp)
  | cons ce r ih =>
    obtain ⟨t, es'⟩ := ce
    by_cases htc : t = c
    · rw [lookupCtx, if_pos htc] at h
      intro n
      rw [count, if_pos htc, Option.some.inj h]
    · rw [lookupCtx, if_neg htc] at h
      intro n
      rw [count, if_neg htc]
      exact ih h n

theorem countIn_pos_of_mem {es : List (Tok × Nat)} (hpos : ∀ nk ∈ es, 0 < nk.2)
    {x : Tok} (hx : x ∈ es.map Prod.fst) : 0 < countIn es x := by
  induction es with
  | nil => simp at hx
  | cons nk es ih =>
    obtain ⟨t, k⟩ := nk
    by_cases htx : t = x
    · rw [countIn, if_pos htx]
      exact hpos (t, k) (List.mem_cons_self _ _)
    · rw [countIn, if_neg htx]
      simp only [List.map_cons, List.mem_cons] at hx
      rcases hx with hx | hx
      · exact absurd hx.symm htx
      · exact ih (fun nk hnk => hpos nk (List.mem_cons_of_mem _ hnk)) hx

theorem count_pos_isCtx {m : Model} {c n : Tok} (h : 0 < count m c n) :
    c ∈ m.map Prod.fst := by
  induction m with
  | nil => rw [count] at h; omega
  | cons ce r ih =>
    obtain ⟨t, es⟩ := ce
    by_cases htc : t = c
    · simp [htc]
    · rw [count, if_neg htc] at h
      exact List.mem_cons_of_mem _ (ih h)

theorem totalWeight_pos {es : List (Tok × Nat)} (hne : es ≠ [])
    (hpos : ∀ nk ∈ es, 0 < nk.2) : 0 < totalWeight es := by
  cases es with
  | nil => exact absurd rfl hne
  | cons nk es =>
    have h1 := hpos nk (List.mem_cons_self _ _)
    rw [totalWeight, List.map_cons, List.sum_cons]
    omega

theorem pickWeighted_mem :
    ∀ (es : List (Tok × Nat)) (r : Nat), es ≠ [] →
      pickWeighted es r ∈ es.map Prod.fst := by
  intro es
  induction es with
  | nil => intro r h; exact absurd rfl h
  | cons nk es ih =>
    intro r _
    obtain ⟨t, k⟩ := nk
    cases hes : es with
    | nil => simp [pickWeighted]
    | cons nk' es' =>
      rw [show pickWeighted ((t, k) :: nk' :: es') r =
          if r < k then t else pickWeighted (nk' :: es') (r - k) from rfl]
      by_cases hr : r < k
      · rw [if_pos hr]; simp
      · rw [if_neg hr]
        have := ih (r - k) (by simp [hes])
        rw [hes] at this
        simp only [List.map_cons, List.mem_cons] at this ⊢
        tauto

theorem getD_mem {α : Type} :
    ∀ (l : List α) (i : Nat) (d : α), i < l.length → l.getD i d ∈ l := by
  intro l
  induction l with
  | nil => intro i d h; simp at h
  | cons a l ih =>
    intro i d h
    cases i with
    | zero => simp [List.getD]
    | succ i =>
      rw [show (a :: l).getD (i + 1) d = l.getD i d from rfl]
      exact List.mem_cons_of_mem _ (ih i d (by simpa using h))

theorem alphabet_cases {m : Model} {x : Tok} (h : x ∈ alphabet m) :
    x ∈ m.map Prod.fst ∨ ∃ ce ∈ m, x ∈ ce.2.map Prod.fst := by
  rw [alphabet, List.mem_dedup, List.mem_append] at h
  rcases h with h | h
  · exact Or.inl h
  · rw [List.mem_flatMap] at h
    obtain ⟨ce, hce, hx⟩ := h
    exact Or.inr ⟨ce, hce, hx⟩

theorem count_pos_of_entry {m : Model} (hm : ClosedModel m)
    {ce : Tok × List (Tok × Nat)} (hce : ce ∈ m) {x : Tok}
    (hx : x ∈ ce.2.map Prod.fst) : 0 < count m ce.1 x := by
  obtain ⟨hnodup, hpos, _⟩ := hm
  have hkey : ce.1 ∈ m.map Prod.fst := List.mem_map_of_mem Prod.fst hce
  obtain ⟨es, hes⟩ := lookupCtx_isSome_of_mem hkey
  have hmem := lookupCtx_some_mem hes
  have hsame : es = ce.2 := by
    have h1 : (ce.1, es) ∈ m := hmem
    have h2 : (ce.1, ce.2) ∈ m := by simpa using hce
    have hinj := List.inj_on_of_nodup_map hnodup
    have := hinj h1 h2 rfl
    exact congrArg Prod.snd this
  rw [count_eq_countIn hes x, hsame]
  exact countIn_pos_of_mem (fun nk hnk => (hpos ce hce).2 nk hnk) hx

theorem sampleDiscard_good {m : Model} (hm : ClosedModel m) (hne : m ≠ [])
    {t : Tok} (ht : t = Tok.start ∨ t ∈ m.map Prod.fst) (p : Prng) :
    (sampleDiscard m t p).1 ≠ Tok.start
    ∧ ((sampleDiscard m t p).1 = Tok.stop ∨ (sampleDiscard m t p).1 ∈ m.map Prod.fst) := by
  obtain ⟨hnodup, hpos, hclosed⟩ := hm
  cases hl : lookupCtx m t with
  | some es =>
    have hmem := lookupCtx_some_mem hl
    have hesne : es ≠ [] := (hpos (t, es) hmem).1
    have htotal : 0 < totalWeight es :=
      totalWeight_pos hesne (fun nk hnk => (hpos _ hmem).2 nk hnk)
    have h1 : sampleDeterministic m t p =
        some (pickWeighted es ((p.next).1.toNat % totalWeight es), (p.next).2) := by
      unfold sampleDeterministic
      rw [hl]
      simp only []
      rw [if_neg (by omega)]
    have hsamp : (sampleDiscard m t p).1 =
        pickWeighted es ((p.next).1.toNat % totalWeight es) := by
      rw [sampleDiscard, h1, Option.getD_some]
    have hpick : (sampleDiscard m t p).1 ∈ es.map Prod.fst := by
      rw [hsamp]
      exact pickWeighted_mem es _ hesne
    have hcount : 0 < count m t (sampleDiscard m t p).1 :=
      count_pos_of_entry ⟨hnodup, hpos, hclosed⟩ hmem hpick
    obtain ⟨hns, hrest⟩ := hclosed t _ hcount
    refine ⟨hns, ?_⟩
    rcases hrest with h | ⟨n', hn'⟩
    · exact Or.inl h
    · exact Or.inr (count_pos_isCtx hn')
  | none =>
    have hts : t = Tok.start := by
      rcases ht with h | h
      · exact h
      · exact absurd h (lookupCtx_none_not_mem hl)
    obtain ⟨ce0, r0, hm0⟩ : ∃ ce0 r0, m = ce0 :: r0 := by
      cases m with
      | nil => exact absurd rfl hne
      | cons ce0 r0 => exact ⟨ce0, r0, rfl⟩
    have habmem : ce0.1 ∈ alphabet m := by
      rw [alphabet, List.mem_dedup, List.mem_append]
      exact Or.inl (by rw [hm0]; simp)
    have habne : ¬(alphabet m).isEmpty = true := by
      intro hemp
      rw [List.isEmpty_iff.mp hemp] at habmem
      simp at habmem
    have h1 : sampleDeterministic m t p =
        some ((alphabet m).getD ((p.next).1.toNat % (alphabet m).length) (Tok.word ""),
          (p.next).2) := by
      unfold sampleDeterministic
      rw [hl]
      simp only []
      rw [if_neg habne]
    have hsamp : (sampleDiscard m t p).1 =
        (alphabet m).getD ((p.next).1.toNat % (alphabet m).length) (Tok.word "") := by
      rw [sampleDiscard, h1, Option.getD_some]
    have hablen : 0 < (alphabet m).length := by
      cases hab : alphabet m with
      | nil => rw [hab] at habmem; simp at habmem
      | cons a l => simp
    have hinab : (sampleDiscard m t p).1 ∈ alphabet m := by
      rw [hsamp]
      exact getD_mem _ _ _ (Nat.mod_lt _ hablen)
    have hstartnk : Tok.start ∉ m.map Prod.fst := hts ▸ lookupCtx_none_not_mem hl
    rcases alphabet_cases hinab with hk | ⟨ce, hce, hx⟩
    · refine ⟨?_, Or.inr hk⟩
      intro hx
      rw [hx] at hk
      exact hstartnk hk
    · have hcount := count_pos_of_entry ⟨hnodup, hpos, hclosed⟩ hce hx
      obtain ⟨hns, hrest⟩ := hclosed ce.1 _ hcount
      refine ⟨hns, ?_⟩
      rcases hrest with h | ⟨n', hn'⟩
      · exact Or.inl h
      · exact Or.inr (count_pos_isCtx hn')

theorem genLoop_no_start {m : Model} (hm : ClosedModel m) (hne : m ≠ []) :
    ∀ (fuel : Nat) (t : Tok) (p : Prng) (rest : List Tok) (p' : Prng),
      genLoop m fuel t p = some (rest, p') →
      (t = Tok.start ∨ t ∈ m.map Prod.fst) →
      ∀ x ∈ rest, x ≠ Tok.start := by
  intro fuel
  induction fuel with
  | zero => intro t p rest p' h _; exact absurd h (by rw [genLoop]; simp)
  | succ fuel ih =>
    intro t p rest p' h ht
    by_cases htstop : t = Tok.stop
    · have := genLoop_stop (htstop ▸ h)
      have hrest : rest = [] := congrArg Prod.fst this
      rw [hrest]
      simp
    · rw [genLoop, if_neg htstop] at h
      have h' : Option.map (fun r => ((sampleDiscard m t p).1 :: r.1, r.2))
          (genLoop m fuel (sampleDiscard m t p).1 (sampleDiscard m t p).2) =
          some (rest, p') := h
      cases hrec : genLoop m fuel (sampleDiscard m t p).1 (sampleDiscard m t p).2 with
      | none => rw [hrec] at h'; exact absurd h' (by simp)
      | some rr =>
        rw [hrec] at h'
        have h2 := Option.some.inj h'
        have hrest : rest = (sampleDiscard m t p).1 :: rr.1 :=
          (congrArg Prod.fst h2).symm
        obtain ⟨hns, hgood⟩ := sampleDiscard_good hm hne ht p
        intro x hx
        rw [hrest] at hx
        rcases List.mem_cons.mp hx with h1 | h1
        · exact h1 ▸ hns
        · rcases hgood with hstop | hkey
          · have := genLoop_stop (hstop ▸ hrec)
            have hrr : rr.1 = [] := congrArg Prod.fst this
            rw [hrr] at h1
            simp at h1
          · exact ih _ _ rr.1 rr.2 (by rw [hrec]) (Or.inr hkey) x h1

theorem bump_pos {es : List (Tok × Nat)} (n : Tok) (hpos : ∀ nk ∈ es, 0 < nk.2) :
    ∀ nk ∈ bump es n, 0 < nk.2 := by
  induction es with
  | nil =>
    intro nk hnk
    rw [bump] at hnk
    rw [List.mem_singleton.mp hnk]
    omega
  | cons e es ih =>
    obtain ⟨t, k⟩ := e
    intro nk hnk
    by_cases htn : t = n
    · rw [bump, if_pos htn] at hnk
      rcases List.mem_cons.mp hnk with h1 | h1
      · rw [h1]; omega
      · exact hpos nk (List.mem_cons_of_mem _ h1)
    · rw [bump, if_neg htn] at hnk
      rcases List.mem_cons.mp hnk with h1 | h1
      · rw [h1]
        exact hpos (t, k) (List.mem_cons_self _ _)
      · exact ih (fun x hx => hpos x (List.mem_cons_of_mem _ hx)) nk h1

theorem pos_addPair {m : Model} (c n : Tok)
    (hpos : ∀ ce ∈ m, ∀ nk ∈ ce.2, 0 < nk.2) :
    ∀ ce ∈ addPair m c n, ∀ nk ∈ ce.2, 0 < nk.2 := by
  intro ce hce
  rcases mem_addPair m c n ce hce with h1 | h1 | ⟨es, h1, h2⟩
  · exact hpos ce h1
  · intro nk hnk
    rw [h1] at hnk
    simp only at hnk
    rw [List.mem_singleton.mp hnk]
    omega
  · intro nk hnk
    rw [h2] at hnk
    exact bump_pos n (fun x hx => hpos (ce.1, es) h1 x hx) nk hnk

theorem pos_AddTextToModel {m : Model} (input : String)
    (hpos : ∀ ce ∈ m, ∀ nk ∈ ce.2, 0 < nk.2) :
    ∀ ce ∈ AddTextToModel m input, ∀ nk ∈ ce.2, 0 < nk.2 := by
  rw [AddTextToModel]
  generalize splitSentences (goFields input) = ss
  induction ss generalizing m with
  | nil => exact hpos
  | cons s ss ih =>
    refine ih ?_
    rw [chainAdd]
    generalize zipConsec (tokensOfSentence s) = ps
    induction ps generalizing m with
    | nil => exact hpos
    | cons pr ps ih2 => exact ih2 (pos_addPair pr.1 pr.2 hpos)

theorem zipConsec_snd_mem :
    ∀ (l : List Tok) (x y : Tok), (x, y) ∈ zipConsec l → y ∈ l.tail := by
  intro l
  induction l with
  | nil => intro x y h; rw [zipConsec] at h; simp at h
  | cons a l ih =>
    intro x y h
    cases l with
    | nil => rw [zipConsec] at h; simp at h
    | cons b r =>
      rw [zipConsec] at h
      rcases List.mem_cons.mp h with h1 | h1
      · rw [show y = b from congrArg Prod.snd h1]
        simp
      · have := ih x y h1
        simp only [List.tail_cons] at this ⊢
        exact List.mem_cons_of_mem _ this

theorem zipConsec_fst_exists :
    ∀ (l : List Tok) (x : Tok), x ∈ l.dropLast → ∃ y, (x, y) ∈ zipConsec l := by
  intro l
  induction l with
  | nil => intro x h; simp at h
  | cons a l ih =>
    intro x h
    cases l with
    | nil => simp at h
    | cons b r =>
      rw [List.dropLast_cons₂] at h
      rcases List.mem_cons.mp h with h1 | h1
      · exact ⟨b, h1 ▸ (by rw [zipConsec]; exact List.mem_cons_self _ _)⟩
      · obtain ⟨y, hy⟩ := ih x h1
        exact ⟨y, by rw [zipConsec]; exact List.mem_cons_of_mem _ hy⟩

theorem count_BuildModel (input : String) (c n : Tok) :
    count (BuildModel input) c n =
      ((splitSentences (goFields input)).map
        (fun s => (zipConsec (tokensOfSentence s)).countP
          (fun pr => decide (pr = (c, n))))).sum := by
  rw [BuildModel, AddTextToModel, count_foldl_chainAdd,
    show count ([] : Model) c n = 0 from rfl, Nat.zero_add]

theorem ClosedModel_BuildModel (input : String) : ClosedModel (BuildModel input) := by
  refine ⟨(WFModel_BuildModel input).1, ?_, ?_⟩
  · intro ce hce
    exact ⟨((WFModel_BuildModel input).2 ce hce).2,
      pos_AddTextToModel input (by simp) ce hce⟩
  · intro c n hpos
    rw [count_BuildModel] at hpos
    have hex : ∃ s ∈ splitSentences (goFields input),
        0 < (zipConsec (tokensOfSentence s)).countP (fun pr => decide (pr = (c, n))) := by
      by_contra hno
      push_neg at hno
      have hz : ((splitSentences (goFields input)).map
          (fun s => (zipConsec (tokensOfSentence s)).countP
            (fun pr => decide (pr = (c, n))))).sum = 0 := by
        refine List.sum_eq_zero ?_
        intro x hx
        obtain ⟨s, hs, rfl⟩ := List.mem_map.mp hx
        have h0 := hno s hs
        omega
      omega
    obtain ⟨s, hs, hcp⟩ := hex
    have hmem : (c, n) ∈ zipConsec (tokensOfSentence s) := by
      obtain ⟨a, ha, hpa⟩ := List.countP_pos_iff.mp hcp
      rwa [show a = (c, n) from of_decide_eq_true hpa] at ha
    have hn : n ∈ s.map Tok.word ++ [Tok.stop] := zipConsec_snd_mem _ c n hmem
    rcases List.mem_append.mp hn with hn1 | hn1
    · obtain ⟨w, _, rfl⟩ := List.mem_map.mp hn1
      refine ⟨by simp, Or.inr ?_⟩
      have hdrop : Tok.word w ∈ (tokensOfSentence s).dropLast := by
        rw [tokensOfSentence, List.dropLast_concat]
        exact List.mem_cons_of_mem _ hn1
      obtain ⟨y, hy⟩ := zipConsec_fst_exists _ _ hdrop
      refine ⟨y, ?_⟩
      rw [count_BuildModel]
      have h1 : 0 < (zipConsec (tokensOfSentence s)).countP
          (fun pr => decide (pr = (Tok.word w, y))) :=
        List.countP_pos_iff.mpr ⟨(Tok.word w, y), hy, by simp⟩
      have h2 : (zipConsec (tokensOfSentence s)).countP
            (fun pr => decide (pr = (Tok.word w, y))) ≤
          ((splitSentences (goFields input)).map
            (fun s => (zipConsec (tokensOfSentence s)).countP
              (fun pr => decide (pr = (Tok.word w, y))))).sum := by
        refine List.single_le_sum (fun x _ => Nat.zero_le x) _ ?_
        exact List.mem_map_of_mem _ hs
      omega
    · rw [List.mem_singleton.mp hn1]
      exact ⟨by simp, Or.inl rfl⟩

/-- Claim C5: `GenerateStoryFromPrng`, for every model and seeded generator,
runs the sampling loop from context [START], advancing the context to the
single most recent token; whenever it returns, the sampled token trace is
START, the returned words, then the first sampled END; the result is those
words joined with single spaces — START and END stripped — and, for every
model with the invariants training guarantees (which every trained model
has, second conjunct), no sentinel token occurs among the words. -/
theorem GenerateStoryFromPrng_spec :
    (∀ (m : Model) (p : Prng) (fuel : Nat) (s : String) (p' : Prng),
        GenerateStoryFromPrng m p fuel = some (s, p') →
        ∃ ws : List Tok,
          genTokens m fuel p = some (Tok.start :: ws ++ [Tok.stop], p')
          ∧ s = String.intercalate " " (ws.map Tok.render)
          ∧ Tok.stop ∉ ws
          ∧ (ClosedModel m → ∀ x ∈ ws, x ≠ Tok.start ∧ x ≠ Tok.stop))
    ∧ (∀ input : String, ClosedModel (BuildModel input)) := by
  constructor
  · intro m p fuel s p' h
    rw [GenerateStoryFromPrng] at h
    cases hgt : genTokens m fuel p with
    | none => rw [hgt] at h; exact absurd h (by simp)
    | some r =>
      obtain ⟨ts, p2⟩ := r
      rw [hgt] at h
      have h2 := Option.some.inj h
      have hs : s = String.intercalate " " (((ts.drop 1).dropLast).map Tok.render) :=
        (congrArg Prod.fst h2).symm
      have hp : p2 = p' := congrArg Prod.snd h2
      rw [genTokens] at hgt
      cases hgl : genLoop m fuel Tok.start p with
      | none => rw [hgl] at hgt; exact absurd hgt (by simp)
      | some rr =>
        obtain ⟨rest, p3⟩ := rr
        rw [hgl] at hgt
        have h3 := Option.some.inj hgt
        have hts : ts = Tok.start :: rest := (congrArg Prod.fst h3).symm
        have hp3 : p3 = p2 := congrArg Prod.snd h3
        obtain ⟨ws, hws, hstop⟩ :=
          genLoop_structure fuel Tok.start p rest p3 hgl (by simp)
        refine ⟨ws, ?_, ?_, hstop, ?_⟩
        · rw [hts, hws, hp, List.cons_append]
        · rw [hs, hts]
          simp only [List.drop_succ_cons, List.drop_zero]
          rw [hws, List.dropLast_concat]
        · intro hcm x hx
          by_cases hne : m = []
          · rw [hne, genLoop_nil_none fuel Tok.start p (by simp)] at hgl
            exact absurd hgl (by simp)
          · refine ⟨?_, fun hxs => hstop (hxs ▸ hx)⟩
            exact genLoop_no_start hcm hne fuel Tok.start p rest p3 hgl
              (Or.inl rfl) x (hws ▸ List.mem_append_left _ hx)
  · exact ClosedModel_BuildModel

/-- Witness for `GenerateStoryFromPrng_spec` at a concrete trained model and
seed. -/
theorem GenerateStoryFromPrng_spec_witness :
    (∃ ws : List Tok,
        genTokens (BuildModel "a.") 8 (mkPrng 1) =
          some (Tok.start :: ws ++ [Tok.stop],
            ((GenerateStoryFromPrng (BuildModel "a.") (mkPrng 1) 8).getD
              ("", mkPrng 0)).2)
        ∧ ((GenerateStoryFromPrng (BuildModel "a.") (mkPrng 1) 8).getD
              ("", mkPrng 0)).1 =
            String.intercalate " " (ws.map Tok.render)
        ∧ Tok.stop ∉ ws
        ∧ (ClosedModel (BuildModel "a.") →
            ∀ x ∈ ws, x ≠ Tok.start ∧ x ≠ Tok.stop))
    ∧ ClosedModel (BuildModel "a.") :=
  ⟨GenerateStoryFromPrng_spec.1 (BuildModel "a.") (mkPrng 1) 8
    ((GenerateStoryFromPrng (BuildModel "a.") (mkPrng 1) 8).getD ("", mkPrng 0)).1
    ((GenerateStoryFromPrng (BuildModel "a.") (mkPrng 1) 8).getD ("", mkPrng 0)).2
    (by decide),
   GenerateStoryFromPrng_spec.2 "a."⟩

end Endless
